import Mathlib

/-!
Verification of the large-file preview core (plugins/tauri-plugin-large-file-preview,
file models.rs) against its natural-language specification.

File contents are modelled as lists of bytes (`List Nat`, each element a byte value).
Strings produced by the code are likewise modelled at the byte level.  Fallible
operations return `Option` or `Except`.  Environmental effects (a memory-mapping
call succeeding or failing) are modelled by explicit boolean parameters.
-/

set_option maxHeartbeats 1000000

namespace LargeFile

/-- Maximum byte length of a single line, `MAX_LINE_BYTES` in models.rs (6 MiB). -/
def MAX_LINE_BYTES : Nat := 6 * 1024 * 1024

/-- The read buffer size used by `LargeFilePreview::open` (64 KiB). -/
def CHUNK_BYTES : Nat := 64 * 1024

/-- The sparse index interval (`index_interval` in models.rs). -/
def INDEX_INTERVAL : Nat := 1000

/-! ### Reference oracle: naive sequential line segmentation -/

/-- Naive `read_until`-style splitting: returns the first line of the byte
list, including its terminating newline byte 10 when present, together with
the remaining bytes.  Models `BufRead::read_until(b'\n', ..)`. -/
def readUntil : List Nat → List Nat × List Nat
  | [] => ([], [])
  | b :: r =>
    if b = 10 then ([10], r)
    else
      let p := readUntil r
      (b :: p.1, p.2)

theorem readUntil_nil : readUntil [] = ([], []) := rfl

theorem readUntil_fst_ne_nil {l : List Nat} (h : l ≠ []) : (readUntil l).1 ≠ [] := by
  match l with
  | [] => exact absurd rfl h
  | b :: r =>
    by_cases hb : b = 10
    · simp [readUntil, hb]
    · simp [readUntil, hb]

theorem readUntil_append_length (l : List Nat) :
    (readUntil l).1.length + (readUntil l).2.length = l.length := by
  induction l with
  | nil => rfl
  | cons b r ih =>
    by_cases hb : b = 10
    · simp [readUntil, hb]
      omega
    · simp only [readUntil, hb, if_false]
      simp only [List.length_cons]
      omega

theorem readUntil_snd_length_lt {l : List Nat} (h : l ≠ []) :
    (readUntil l).2.length < l.length := by
  have hl := readUntil_append_length l
  have h1 : (readUntil l).1.length ≠ 0 := by
    intro hz
    exact readUntil_fst_ne_nil h (List.eq_nil_of_length_eq_zero hz)
  omega

theorem readUntil_join (l : List Nat) : (readUntil l).1 ++ (readUntil l).2 = l := by
  induction l with
  | nil => rfl
  | cons b r ih =>
    by_cases hb : b = 10
    · simp [readUntil, hb]
    · simp [readUntil, hb, ih]

/-- Fuel-driven worker for `splitKeep`; the fuel is only a structural bound
and never runs out when it starts at the list length. -/
def splitKeepGo : Nat → List Nat → List (List Nat)
  | _, [] => []
  | 0, _ :: _ => []
  | f + 1, b :: r => (readUntil (b :: r)).1 :: splitKeepGo f (readUntil (b :: r)).2

theorem splitKeepGo_eq (f : Nat) :
    ∀ (g : Nat) (l : List Nat), l.length ≤ f → l.length ≤ g →
      splitKeepGo f l = splitKeepGo g l := by
  induction f with
  | zero =>
    intro g l hf _
    have : l = [] := List.eq_nil_of_length_eq_zero (by omega)
    subst this
    cases g <;> rfl
  | succ f ih =>
    intro g l hf hg
    match l with
    | [] => cases g <;> rfl
    | b :: r =>
      match g with
      | 0 => simp at hg
      | g + 1 =>
        show (readUntil (b :: r)).1 :: splitKeepGo f (readUntil (b :: r)).2 =
          (readUntil (b :: r)).1 :: splitKeepGo g (readUntil (b :: r)).2
        have hlt := readUntil_snd_length_lt (l := b :: r) (by simp)
        simp at hf hg hlt
        rw [ih g (readUntil (b :: r)).2 (by omega) (by omega)]

/-- Naive segmentation of a byte list into lines, each line keeping its
terminating `10` byte; a final segment with no terminator is kept as is.
This is the reference oracle for line structure. -/
def splitKeep (l : List Nat) : List (List Nat) := splitKeepGo l.length l

theorem splitKeep_nil : splitKeep [] = [] := rfl

theorem splitKeep_cons (b : Nat) (r : List Nat) :
    splitKeep (b :: r) = (readUntil (b :: r)).1 :: splitKeep (readUntil (b :: r)).2 := by
  show splitKeepGo (r.length + 1) (b :: r) = _
  show (readUntil (b :: r)).1 :: splitKeepGo r.length (readUntil (b :: r)).2 = _
  have hlt := readUntil_snd_length_lt (l := b :: r) (by simp)
  simp at hlt
  rw [splitKeepGo_eq r.length _ _ (by omega) (Nat.le_refl _)]
  rfl

theorem splitKeep_of_ne_nil {l : List Nat} (h : l ≠ []) :
    splitKeep l = (readUntil l).1 :: splitKeep (readUntil l).2 := by
  match l with
  | [] => exact absurd rfl h
  | b :: r => exact splitKeep_cons b r

/-- Strip one trailing newline byte. -/
def stripNL (l : List Nat) : List Nat :=
  if l.getLast? = some 10 then l.dropLast else l

/-- The oracle list of lines (terminators removed). -/
def splitLines (l : List Nat) : List (List Nat) := (splitKeep l).map stripNL

/-- The oracle total number of lines. -/
def totalLines (l : List Nat) : Nat := (splitKeep l).length

/-- Drop the first `n` oracle lines (with terminators) from a byte list. -/
def dropLines : List Nat → Nat → List Nat
  | l, 0 => l
  | l, n + 1 => dropLines (readUntil l).2 n

/-- Byte offset of the first byte of (0-based) line `n`: the number of bytes
consumed by the first `n` oracle lines. -/
def lineOffset (l : List Nat) (n : Nat) : Nat := l.length - (dropLines l n).length

/-- Number of newline bytes. -/
def countNL (l : List Nat) : Nat := l.count 10

/-- Length of the trailing run of non-newline bytes (the current partial line
at the end of `l`). -/
def tailLen (l : List Nat) : Nat := (l.reverse.takeWhile (fun b => b ≠ 10)).length

theorem tailLen_nil : tailLen [] = 0 := rfl

theorem tailLen_append_nl (l : List Nat) : tailLen (l ++ [10]) = 0 := by
  simp [tailLen]

theorem tailLen_append_ne (l : List Nat) {b : Nat} (hb : b ≠ 10) :
    tailLen (l ++ [b]) = tailLen l + 1 := by
  simp [tailLen, hb]

theorem countNL_append (l m : List Nat) : countNL (l ++ m) = countNL l + countNL m := by
  simp [countNL]

theorem tailLen_le_length (l : List Nat) : tailLen l ≤ l.length := by
  calc (l.reverse.takeWhile (fun b => b ≠ 10)).length
      ≤ l.reverse.length := List.Sublist.length_le (List.takeWhile_sublist _)
    _ = l.length := List.length_reverse l

theorem takeWhile_append_all {p : Nat → Bool} {u : List Nat} (v : List Nat)
    (h : ∀ b ∈ u, p b) : (u ++ v).takeWhile p = u ++ v.takeWhile p := by
  induction u with
  | nil => simp
  | cons a u ih =>
    have ha : p a := h a (by simp)
    simp only [List.cons_append, List.takeWhile_cons, ha]
    rw [ih (fun b hb => h b (by simp [hb]))]
    simp

theorem takeWhile_append_stop {p : Nat → Bool} {c : Nat} (u w : List Nat)
    (hc : ¬ p c) : (u ++ c :: w).takeWhile p = u.takeWhile p := by
  induction u with
  | nil => simp [List.takeWhile_cons, hc]
  | cons a u ih =>
    by_cases ha : p a
    · simp only [List.cons_append, List.takeWhile_cons, ha, if_pos, ih]
    · simp [List.takeWhile_cons, ha]

theorem tailLen_append_no10 (a : List Nat) {x : List Nat} (hx : countNL x = 0) :
    tailLen (a ++ x) = tailLen a + x.length := by
  unfold tailLen
  rw [List.reverse_append, takeWhile_append_all a.reverse]
  · simp [Nat.add_comm]
  · intro b hb
    have : b ∈ x := List.mem_reverse.mp hb
    have : b ≠ 10 := by
      intro h; subst h
      have := List.count_pos_iff_mem.mpr this
      unfold countNL at hx
      omega
    simpa using this

theorem tailLen_mid10 (a b : List Nat) : tailLen (a ++ 10 :: b) = tailLen b := by
  unfold tailLen
  have hrev : (a ++ 10 :: b).reverse = b.reverse ++ 10 :: a.reverse := by simp
  rw [hrev, takeWhile_append_stop _ _ (by simp)]

theorem tailLen_of_no10 {l : List Nat} (h : countNL l = 0) : tailLen l = l.length := by
  have := tailLen_append_no10 [] h
  simpa [tailLen_nil] using this

theorem tailLen_zero_of_last10 {l : List Nat} (h : l.getLast? = some 10) : tailLen l = 0 := by
  rcases List.getLast?_eq_some_iff.mp h with ⟨l', rfl⟩
  exact tailLen_append_nl l'

/-- Case analysis for `readUntil`: either the list has no newline and is
consumed whole, or it splits at the first newline. -/
theorem readUntil_cases (a : List Nat) :
    (countNL a = 0 ∧ readUntil a = (a, [])) ∨
    (∃ x y, a = x ++ 10 :: y ∧ countNL x = 0 ∧ readUntil a = (x ++ [10], y)) := by
  induction a with
  | nil => left; exact ⟨rfl, rfl⟩
  | cons b r ih =>
    by_cases hb : b = 10
    · right
      refine ⟨[], r, by simp [hb], rfl, ?_⟩
      simp [readUntil, hb]
    · rcases ih with ⟨h0, heq⟩ | ⟨x, y, hxy, hx0, heq⟩
      · left
        constructor
        · simp [countNL, hb, countNL] at h0 ⊢
          simpa [List.count_cons, hb] using h0
        · simp [readUntil, hb, heq]
      · right
        refine ⟨b :: x, y, by simp [hxy], ?_, ?_⟩
        · simpa [countNL, List.count_cons, hb] using hx0
        · simp [readUntil, hb, heq]

/-- `readUntil` on a list whose first newline is explicit. -/
theorem readUntil_app {x : List Nat} (y : List Nat) (hx : countNL x = 0) :
    readUntil (x ++ 10 :: y) = (x ++ [10], y) := by
  induction x with
  | nil => simp [readUntil]
  | cons b r ih =>
    have hb : b ≠ 10 := by
      intro h; subst h
      simp [countNL, List.count_cons] at hx
    have hr : countNL r = 0 := by
      simpa [countNL, List.count_cons, hb] using hx
    simp [readUntil, hb, ih hr]

/-- `readUntil` on a newline-free nonempty list consumes it whole. -/
theorem readUntil_no10 {x : List Nat} (hx : countNL x = 0) :
    readUntil x = (x, []) := by
  induction x with
  | nil => rfl
  | cons b r ih =>
    have hb : b ≠ 10 := by
      intro h; subst h
      simp [countNL, List.count_cons] at hx
    have hr : countNL r = 0 := by
      simpa [countNL, List.count_cons, hb] using hx
    simp [readUntil, hb, ih hr]

/-- Dropping as many oracle lines as a fully newline-terminated block contains
lands exactly past the block. -/
theorem dropLines_full (a : List Nat) (ha : tailLen a = 0) (rest : List Nat) :
    dropLines (a ++ rest) (countNL a) = rest := by
  rcases readUntil_cases a with ⟨h0, _⟩ | ⟨x, y, hxy, hx0, _⟩
  · have hlen := tailLen_of_no10 h0
    have hnil : a = [] := List.eq_nil_of_length_eq_zero (by omega)
    subst hnil
    simp [countNL, dropLines]
  · have hcount : countNL a = countNL y + 1 := by
      subst hxy
      unfold countNL at hx0 ⊢
      simp [List.count_append, List.count_cons]
      omega
    have htail : tailLen y = 0 := by
      subst hxy
      rw [tailLen_mid10] at ha
      exact ha
    rw [hcount, hxy]
    have hsplit : (x ++ 10 :: y) ++ rest = x ++ 10 :: (y ++ rest) := by simp
    rw [hsplit]
    show dropLines (readUntil (x ++ 10 :: (y ++ rest))).2 (countNL y) = rest
    rw [readUntil_app _ hx0]
    exact dropLines_full y htail rest
termination_by a.length
decreasing_by
  subst hxy
  simp
  omega

theorem splitKeep_seg {x : List Nat} (y : List Nat) (hx : countNL x = 0) :
    splitKeep (x ++ 10 :: y) = (x ++ [10]) :: splitKeep y := by
  have hne : x ++ 10 :: y ≠ [] := by simp
  rw [splitKeep_of_ne_nil hne, readUntil_app _ hx]

theorem splitKeep_no10 {x : List Nat} (hx : countNL x = 0) (hne : x ≠ []) :
    splitKeep x = [x] := by
  rw [splitKeep_of_ne_nil hne, readUntil_no10 hx]
  simp [splitKeep_nil]

theorem splitKeep_join (l : List Nat) : (splitKeep l).join = l := by
  by_cases hnil : l = []
  · subst hnil; simp [splitKeep_nil]
  · rw [splitKeep_of_ne_nil hnil]
    have := splitKeep_join (readUntil l).2
    simp [this, readUntil_join]
termination_by l.length
decreasing_by
  exact readUntil_snd_length_lt hnil

/-- Oracle line count as newline count plus a final-fragment bit. -/
theorem totalLines_formula (l : List Nat) :
    totalLines l = countNL l + (if tailLen l = 0 then 0 else 1) := by
  by_cases hnil : l = []
  · subst hnil; simp [totalLines, splitKeep_nil, countNL, tailLen_nil]
  · rcases readUntil_cases l with ⟨h0, _⟩ | ⟨x, y, hxy, hx0, _⟩
    · rw [totalLines, splitKeep_no10 h0 hnil]
      have ht := tailLen_of_no10 h0
      have hlen : l.length ≠ 0 := fun hz => hnil (List.eq_nil_of_length_eq_zero hz)
      have hite : (if tailLen l = 0 then 0 else 1) = 1 := by
        rw [ht, if_neg hlen]
      rw [hite, h0]
      simp
    · rw [hxy, totalLines, splitKeep_seg _ hx0]
      have ih := totalLines_formula y
      have hcount : countNL (x ++ 10 :: y) = countNL y + 1 := by
        unfold countNL at hx0 ⊢
        simp [List.count_append, List.count_cons]
        omega
      have htail := tailLen_mid10 x y
      simp only [List.length_cons, hcount, htail]
      unfold totalLines at ih
      omega
termination_by l.length
decreasing_by
  subst hxy
  simp
  omega

theorem dropLines_eq_join_drop (l : List Nat) (n : Nat) :
    dropLines l n = ((splitKeep l).drop n).join := by
  induction n generalizing l with
  | zero => simp [dropLines, splitKeep_join]
  | succ n ih =>
    by_cases hnil : l = []
    · subst hnil
      simp [splitKeep_nil, dropLines, readUntil_nil]
      have : dropLines [] n = (([] : List (List Nat)).drop n).join := by
        have := ih []
        simpa [splitKeep_nil] using this
      simpa using this
    · rw [splitKeep_of_ne_nil hnil]
      show dropLines (readUntil l).2 n = _
      rw [ih]
      simp

theorem splitKeep_dropLines (l : List Nat) (n : Nat) :
    splitKeep (dropLines l n) = (splitKeep l).drop n := by
  induction n generalizing l with
  | zero => simp [dropLines]
  | succ n ih =>
    by_cases hnil : l = []
    · subst hnil
      show splitKeep (dropLines (readUntil []).2 n) = _
      rw [readUntil_nil]
      simp [ih, splitKeep_nil]
    · rw [splitKeep_of_ne_nil hnil]
      show splitKeep (dropLines (readUntil l).2 n) = _
      rw [ih]
      simp

theorem totalLines_dropLines (l : List Nat) (n : Nat) :
    totalLines (dropLines l n) = totalLines l - n := by
  unfold totalLines
  rw [splitKeep_dropLines]
  simp

theorem dropLines_totalLines (l : List Nat) : dropLines l (totalLines l) = [] := by
  rw [dropLines_eq_join_drop]
  simp [totalLines]

theorem dropLines_is_suffix (l : List Nat) (n : Nat) :
    ((splitKeep l).take n).join ++ dropLines l n = l := by
  rw [dropLines_eq_join_drop]
  rw [← List.join_append]
  simp [splitKeep_join]

/-- Dropping `lineOffset l n` bytes is the same as dropping `n` oracle lines. -/
theorem drop_lineOffset (l : List Nat) (n : Nat) :
    l.drop (lineOffset l n) = dropLines l n := by
  have hsuf := dropLines_is_suffix l n
  have hlen : lineOffset l n = ((splitKeep l).take n).join.length := by
    unfold lineOffset
    have : ((splitKeep l).take n).join.length + (dropLines l n).length = l.length := by
      rw [← List.length_append, hsuf]
    omega
  have hgen : ∀ (a b : List Nat), a ++ b = l → l.drop a.length = b := by
    intro a b hab
    rw [← hab, List.drop_left]
  rw [hlen]
  exact hgen _ _ hsuf

theorem takeWhile_append_ge {p : Nat → Bool} (u v : List Nat) :
    (u.takeWhile p).length ≤ ((u ++ v).takeWhile p).length := by
  induction u with
  | nil => simp
  | cons a u ih =>
    by_cases ha : p a
    · simpa [List.takeWhile_cons, ha] using ih
    · simp [List.takeWhile_cons, ha]

theorem tailLen_append_ge (a p : List Nat) : tailLen p ≤ tailLen (a ++ p) := by
  unfold tailLen
  rw [List.reverse_append]
  exact takeWhile_append_ge p.reverse a.reverse

/-- No line of the file gets near the 6 MiB ceiling: at every byte position the
current partial line is shorter than `MAX_LINE_BYTES`.  This is the formal
reading of "no overlong lines". -/
def ShortLines (l : List Nat) : Prop :=
  ∀ p q : List Nat, l = p ++ q → tailLen p < MAX_LINE_BYTES

theorem shortLines_of_small {l : List Nat} (h : l.length < MAX_LINE_BYTES) :
    ShortLines l := by
  intro p q hpq
  have : p.length ≤ l.length := by
    rw [hpq]
    simp
  have := tailLen_le_length p
  omega

theorem shortLines_suffix {a b : List Nat} (h : ShortLines (a ++ b)) : ShortLines b := by
  intro p q hpq
  have hsplit : a ++ b = (a ++ p) ++ q := by rw [hpq]; simp
  have := h (a ++ p) q hsplit
  have := tailLen_append_ge a p
  omega

/-! ### The model of `LargeFilePreview::open` (models.rs lines 60-133)

The Rust code reads the file in chunks of at most 64 KiB (`reader.read` may
return fewer bytes), scanning each chunk for newline bytes while carrying the
unfinished partial line in `rem`.  The model keeps the byte content of `rem`
abstract and tracks only its length, which is all the algorithm inspects. -/

/-- Scanner state: counted lines, running byte position, sparse index and the
carried partial-line length (`rem.len()`). -/
structure ScanSt where
  total : Nat
  pos : Nat
  index : List Nat
  remLen : Nat
deriving Repr, DecidableEq

/-- Position advance for one completed line of byte length `lineLen`
(models.rs lines 98-104): capped at `MAX_LINE_BYTES`. -/
def advanceLen (lineLen : Nat) : Nat :=
  if lineLen > MAX_LINE_BYTES then MAX_LINE_BYTES else lineLen

/-- Index push on every `INDEX_INTERVAL`-th counted line (models.rs 106-108). -/
def pushIdx (total : Nat) (index : List Nat) (pos : Nat) : List Nat :=
  if total % INDEX_INTERVAL = 0 then index ++ [pos] else index

/-- One byte of the inner per-chunk loop (models.rs lines 93-112).  The second
component of the state is the in-chunk partial length `i + 1 - start`. -/
def scanByte (s : ScanSt × Nat) (b : Nat) : ScanSt × Nat :=
  if b = 10 then
    (⟨s.1.total + 1, s.1.pos + advanceLen (s.1.remLen + s.2 + 1),
      pushIdx (s.1.total + 1) s.1.index (s.1.pos + advanceLen (s.1.remLen + s.2 + 1)), 0⟩, 0)
  else (s.1, s.2 + 1)

/-- End-of-chunk handling (models.rs lines 113-122): the unfinished part joins
`rem`, and `rem` is truncated to `MAX_LINE_BYTES` with the excess accounted
into `pos`. -/
def endChunk (s : ScanSt × Nat) : ScanSt :=
  if s.1.remLen + s.2 > MAX_LINE_BYTES then
    ⟨s.1.total, s.1.pos + (s.1.remLen + s.2 - MAX_LINE_BYTES), s.1.index, MAX_LINE_BYTES⟩
  else
    ⟨s.1.total, s.1.pos, s.1.index, s.1.remLen + s.2⟩

/-- Process one chunk returned by `reader.read`. -/
def processChunk (st : ScanSt) (c : List Nat) : ScanSt :=
  endChunk (c.foldl scanByte (st, 0))

/-- End-of-file handling (models.rs lines 82-91): a nonempty leftover counts
as one final line. -/
def finishScan (st : ScanSt) : ScanSt :=
  if st.remLen > 0 then
    ⟨st.total + 1, st.pos + st.remLen, pushIdx (st.total + 1) st.index (st.pos + st.remLen),
      st.remLen⟩
  else st

def initSt : ScanSt := ⟨0, 0, [], 0⟩

/-- The whole open-time scan, as a function of the chunk sequence produced by
the successive reads. -/
def openScan (chunks : List (List Nat)) : ScanSt :=
  finishScan (chunks.foldl processChunk initSt)

/-- A possible sequence of reads for a file: the chunks concatenate to the
content, every read is nonempty (a 0-byte read means end of file) and no read
exceeds the 64 KiB buffer. -/
def ValidChunks (content : List Nat) (chunks : List (List Nat)) : Prop :=
  chunks.join = content ∧ ∀ c ∈ chunks, c ≠ [] ∧ c.length ≤ CHUNK_BYTES

theorem MAX_pos : 0 < MAX_LINE_BYTES := by
  unfold MAX_LINE_BYTES
  omega

theorem advanceLen_le (n : Nat) : advanceLen n ≤ n := by
  unfold advanceLen
  by_cases h : n > MAX_LINE_BYTES
  · rw [if_pos h]
    omega
  · rw [if_neg h]

theorem advanceLen_pos {n : Nat} (h : 0 < n) : 0 < advanceLen n := by
  unfold advanceLen
  have := MAX_pos
  by_cases hc : n > MAX_LINE_BYTES
  · rw [if_pos hc]
    omega
  · rw [if_neg hc]
    omega

theorem advanceLen_eq {n : Nat} (h : n ≤ MAX_LINE_BYTES) : advanceLen n = n := by
  unfold advanceLen
  rw [if_neg (by omega)]

theorem pushIdx_length (t : Nat) (idx : List Nat) (p : Nat) :
    (pushIdx t idx p).length = idx.length + (if t % INDEX_INTERVAL = 0 then 1 else 0) := by
  unfold pushIdx
  by_cases h : t % INDEX_INTERVAL = 0
  · simp [h]
  · simp [h]

theorem pushIdx_sorted {idx : List Nat} {p : Nat} (t : Nat)
    (h : List.Sorted (· ≤ ·) idx) (hle : ∀ x ∈ idx, x ≤ p) :
    List.Sorted (· ≤ ·) (pushIdx t idx p) := by
  unfold pushIdx
  by_cases hm : t % INDEX_INTERVAL = 0
  · rw [if_pos hm]
    refine List.pairwise_append.mpr ⟨h, by simp, ?_⟩
    intro a ha b hb
    simp at hb
    subst hb
    exact hle a ha
  · rwa [if_neg hm]

theorem pushIdx_mem {t : Nat} {idx : List Nat} {p x : Nat}
    (hx : x ∈ pushIdx t idx p) : x ∈ idx ∨ x = p := by
  unfold pushIdx at hx
  by_cases hm : t % INDEX_INTERVAL = 0
  · rw [if_pos hm] at hx
    simpa using hx
  · rw [if_neg hm] at hx
    exact Or.inl hx

/-- General scan invariant (no assumption on line lengths): after processing
the bytes `r`, the line counter equals the newline count, emptiness of the
carried partial tracks the trailing fragment, and the index has one sorted
entry per `INDEX_INTERVAL` counted lines, all bounded by the position. -/
def InvGen (r : List Nat) (s : ScanSt × Nat) : Prop :=
  s.1.total = countNL r ∧
  (s.1.remLen + s.2 = 0 ↔ tailLen r = 0) ∧
  s.1.index.length = s.1.total / INDEX_INTERVAL ∧
  s.1.index.Sorted (· ≤ ·) ∧
  ∀ x ∈ s.1.index, x ≤ s.1.pos

theorem div_succ_interval (t : Nat) :
    t / INDEX_INTERVAL + (if (t + 1) % INDEX_INTERVAL = 0 then 1 else 0) =
      (t + 1) / INDEX_INTERVAL := by
  by_cases hm : (t + 1) % INDEX_INTERVAL = 0
  · rw [if_pos hm]
    unfold INDEX_INTERVAL at hm ⊢
    omega
  · rw [if_neg hm]
    unfold INDEX_INTERVAL at hm ⊢
    omega

theorem countNL_single_ne {b : Nat} (hb : b ≠ 10) : countNL [b] = 0 := by
  unfold countNL
  rw [List.count_eq_zero]
  simp
  exact fun h => hb h.symm

theorem countNL_single_nl : countNL [10] = 1 := by
  simp [countNL]

theorem scanByte_invGen {r : List Nat} {s : ScanSt × Nat} (b : Nat) (h : InvGen r s) :
    InvGen (r ++ [b]) (scanByte s b) := by
  obtain ⟨h1, h2, h3, h4, h5⟩ := h
  by_cases hb : b = 10
  · subst hb
    unfold scanByte
    rw [if_pos rfl]
    have hcnt : countNL (r ++ [10]) = countNL r + 1 := by
      rw [countNL_append, countNL_single_nl]
    refine ⟨?_, ?_, ?_, ?_, ?_⟩
    · show s.1.total + 1 = _
      rw [hcnt, h1]
    · show (0 : Nat) + 0 = 0 ↔ _
      simp [tailLen_append_nl]
    · show (pushIdx (s.1.total + 1) s.1.index _).length = (s.1.total + 1) / INDEX_INTERVAL
      rw [pushIdx_length, h3]
      exact div_succ_interval _
    · show List.Sorted _ (pushIdx (s.1.total + 1) s.1.index _)
      exact pushIdx_sorted _ h4 (fun x hx => by have := h5 x hx; omega)
    · intro x hx
      show x ≤ s.1.pos + advanceLen (s.1.remLen + s.2 + 1)
      rcases pushIdx_mem hx with hx | hx
      · have := h5 x hx
        omega
      · omega
  · unfold scanByte
    rw [if_neg hb]
    have hcnt : countNL (r ++ [b]) = countNL r := by
      rw [countNL_append, countNL_single_ne hb]
      omega
    refine ⟨by rw [hcnt]; exact h1, ?_, h3, h4, h5⟩

    show s.1.remLen + (s.2 + 1) = 0 ↔ _
    rw [tailLen_append_ne _ hb]
    omega

theorem foldl_scanByte_invGen (c : List Nat) :
    ∀ (r : List Nat) (s : ScanSt × Nat), InvGen r s → InvGen (r ++ c) (c.foldl scanByte s) := by
  induction c with
  | nil =>
    intro r s h
    simpa using h
  | cons b c ih =>
    intro r s h
    have h1 := scanByte_invGen b h
    have h2 := ih (r ++ [b]) _ h1
    simpa [List.append_assoc] using h2

theorem endChunk_total (s : ScanSt × Nat) : (endChunk s).total = s.1.total := by
  unfold endChunk
  split <;> rfl

theorem endChunk_index (s : ScanSt × Nat) : (endChunk s).index = s.1.index := by
  unfold endChunk
  split <;> rfl

theorem endChunk_pos_ge (s : ScanSt × Nat) : s.1.pos ≤ (endChunk s).pos := by
  unfold endChunk
  split
  · show s.1.pos ≤ s.1.pos + _
    omega
  · exact Nat.le_refl _

theorem endChunk_remLen (s : ScanSt × Nat) :
    (endChunk s).remLen =
      if s.1.remLen + s.2 > MAX_LINE_BYTES then MAX_LINE_BYTES else s.1.remLen + s.2 := by
  unfold endChunk
  split
  · rfl
  · rfl

theorem endChunk_invGen {r : List Nat} {s : ScanSt × Nat} (h : InvGen r s) :
    InvGen r (endChunk s, 0) := by
  obtain ⟨h1, h2, h3, h4, h5⟩ := h
  refine ⟨?_, ?_, ?_, ?_, ?_⟩
  · show (endChunk s).total = _
    rw [endChunk_total]
    exact h1
  · show (endChunk s).remLen + 0 = 0 ↔ _
    rw [endChunk_remLen]
    by_cases hcap : s.1.remLen + s.2 > MAX_LINE_BYTES
    · rw [if_pos hcap]
      have := MAX_pos
      constructor
      · intro hz
        omega
      · intro hz
        have hco := h2.mpr hz
        omega
    · rw [if_neg hcap]
      constructor
      · intro hz
        exact h2.mp (by omega)
      · intro hz
        have := h2.mpr hz
        omega
  · show (endChunk s).index.length = (endChunk s).total / INDEX_INTERVAL
    rw [endChunk_total, endChunk_index]
    exact h3
  · show List.Sorted _ (endChunk s).index
    rw [endChunk_index]
    exact h4
  · intro x hx
    rw [show (endChunk s, 0).1.index = (endChunk s).index from rfl, endChunk_index] at hx
    have := h5 x hx
    have := endChunk_pos_ge s
    show x ≤ (endChunk s).pos
    omega

theorem processChunk_invGen {r : List Nat} {st : ScanSt} (c : List Nat)
    (h : InvGen r (st, 0)) : InvGen (r ++ c) (processChunk st c, 0) :=
  endChunk_invGen (foldl_scanByte_invGen c r (st, 0) h)

theorem foldl_processChunk_invGen (chunks : List (List Nat)) :
    ∀ (r : List Nat) (st : ScanSt), InvGen r (st, 0) →
      InvGen (r ++ chunks.join) (chunks.foldl processChunk st, 0) := by
  induction chunks with
  | nil =>
    intro r st h
    simpa using h
  | cons c chunks ih =>
    intro r st h
    have h1 := processChunk_invGen c h
    have h2 := ih (r ++ c) _ h1
    simpa [List.append_assoc] using h2

theorem initSt_invGen : InvGen [] (initSt, 0) := by
  refine ⟨rfl, by simp [initSt, tailLen_nil], rfl, by simp [initSt], by simp [initSt]⟩

/-- Unconditional facts about `open`: the counted total equals the oracle line
count, and the index is sorted with exactly `total / interval` entries. -/
theorem openScan_general {content : List Nat} {chunks : List (List Nat)}
    (hv : ValidChunks content chunks) :
    (openScan chunks).total = totalLines content ∧
    (openScan chunks).index.length = totalLines content / INDEX_INTERVAL ∧
    (openScan chunks).index.Sorted (· ≤ ·) := by
  have hinv := foldl_processChunk_invGen chunks [] initSt initSt_invGen
  rw [List.nil_append, hv.1] at hinv
  set st := chunks.foldl processChunk initSt with hst
  have h1 : st.total = countNL content := hinv.1
  have h2 : st.remLen + 0 = 0 ↔ tailLen content = 0 := hinv.2.1
  have h3 : st.index.length = st.total / INDEX_INTERVAL := hinv.2.2.1
  have h4 : List.Sorted (· ≤ ·) st.index := hinv.2.2.2.1
  have h5 : ∀ x ∈ st.index, x ≤ st.pos := hinv.2.2.2.2
  unfold openScan finishScan
  rw [← hst]
  have hform := totalLines_formula content
  by_cases hrem : st.remLen > 0
  · rw [if_pos hrem]
    have htail : tailLen content ≠ 0 := by
      intro hz
      have := h2.mpr hz
      omega
    have htot : st.total + 1 = totalLines content := by
      rw [hform, if_neg htail, h1]
    refine ⟨htot, ?_, ?_⟩
    · show (pushIdx (st.total + 1) st.index (st.pos + st.remLen)).length = _
      rw [pushIdx_length, h3, ← htot]
      exact div_succ_interval _
    · show List.Sorted _ (pushIdx (st.total + 1) st.index (st.pos + st.remLen))
      exact pushIdx_sorted _ h4 (fun x hx => by have := h5 x hx; omega)
  · rw [if_neg hrem]
    have htail : tailLen content = 0 := by
      have hz : st.remLen + 0 = 0 := by omega
      exact h2.mp hz
    have htot : st.total = totalLines content := by
      rw [hform, if_pos htail, h1]
      omega
    exact ⟨htot, by rw [h3, htot], h4⟩

/-- The intended sparse index after counting `t` lines: one entry per interval,
entry `k` holding the byte offset of line `(k+1) * INDEX_INTERVAL`. -/
def idxSpec (content : List Nat) (t : Nat) : List Nat :=
  (List.range (t / INDEX_INTERVAL)).map (fun k => lineOffset content ((k + 1) * INDEX_INTERVAL))

theorem idxSpec_succ (content : List Nat) (t : Nat) :
    idxSpec content (t + 1) = pushIdx (t + 1) (idxSpec content t) (lineOffset content (t + 1)) := by
  unfold idxSpec pushIdx
  by_cases hm : (t + 1) % INDEX_INTERVAL = 0
  · rw [if_pos hm]
    have hdiv : (t + 1) / INDEX_INTERVAL = t / INDEX_INTERVAL + 1 := by
      unfold INDEX_INTERVAL at hm ⊢
      omega
    have harg : (t / INDEX_INTERVAL + 1) * INDEX_INTERVAL = t + 1 := by
      unfold INDEX_INTERVAL at hm ⊢
      omega
    rw [hdiv, List.range_succ, List.map_append]
    simp only [List.map_cons, List.map_nil]
    rw [harg]
  · rw [if_neg hm]
    have hdiv : (t + 1) / INDEX_INTERVAL = t / INDEX_INTERVAL := by
      unfold INDEX_INTERVAL at hm ⊢
      omega
    rw [hdiv]

/-- Exact scan invariant, sound when no line approaches the truncation
ceiling: the position tracks the byte offset exactly and the index holds the
intended line offsets. -/
def InvEx (content r : List Nat) (s : ScanSt × Nat) : Prop :=
  s.1.total = countNL r ∧
  s.1.remLen + s.2 = tailLen r ∧
  s.1.pos + tailLen r = r.length ∧
  s.1.index = idxSpec content (countNL r)

theorem scanByte_invEx {content r : List Nat} {s : ScanSt × Nat}
    (hshort : ShortLines content) (b : Nat) (rest : List Nat)
    (hnext : r ++ b :: rest = content) (h : InvEx content r s) :
    InvEx content (r ++ [b]) (scanByte s b) := by
  obtain ⟨h1, h2, h3, h4⟩ := h
  by_cases hb : b = 10
  · subst hb
    have htail : tailLen r < MAX_LINE_BYTES := hshort r (10 :: rest) hnext.symm
    have hadv : advanceLen (s.1.remLen + s.2 + 1) = tailLen r + 1 := by
      rw [h2]
      exact advanceLen_eq (by omega)
    have hcnt : countNL (r ++ [10]) = countNL r + 1 := by
      rw [countNL_append, countNL_single_nl]
    have hpos2 : s.1.pos + advanceLen (s.1.remLen + s.2 + 1) = r.length + 1 := by
      rw [hadv]
      omega
    have hoff : lineOffset content (countNL r + 1) = r.length + 1 := by
      have hfull : dropLines content (countNL (r ++ [10])) = rest := by
        rw [← hnext]
        have : r ++ 10 :: rest = (r ++ [10]) ++ rest := by simp
        rw [this]
        exact dropLines_full (r ++ [10]) (tailLen_append_nl r) rest
      rw [← hcnt]
      unfold lineOffset
      rw [hfull, ← hnext]
      simp
      omega
    unfold scanByte
    rw [if_pos rfl]
    refine ⟨?_, ?_, ?_, ?_⟩
    · show s.1.total + 1 = _
      rw [hcnt, h1]
    · show (0 : Nat) + 0 = _
      rw [tailLen_append_nl]
    · show s.1.pos + advanceLen (s.1.remLen + s.2 + 1) + tailLen (r ++ [10]) = (r ++ [10]).length
      rw [tailLen_append_nl, hpos2]
      simp
    · show pushIdx (s.1.total + 1) s.1.index (s.1.pos + advanceLen (s.1.remLen + s.2 + 1)) =
        idxSpec content (countNL (r ++ [10]))
      rw [hcnt, idxSpec_succ, h4, h1, hpos2, hoff]
  · unfold scanByte
    rw [if_neg hb]
    have hcnt : countNL (r ++ [b]) = countNL r := by
      rw [countNL_append, countNL_single_ne hb]
      omega
    refine ⟨?_, ?_, ?_, ?_⟩
    · show s.1.total = _
      rw [hcnt, h1]
    · show s.1.remLen + (s.2 + 1) = _
      rw [tailLen_append_ne _ hb]
      omega
    · show s.1.pos + tailLen (r ++ [b]) = (r ++ [b]).length
      rw [tailLen_append_ne _ hb]
      simp
      omega
    · show s.1.index = idxSpec content (countNL (r ++ [b]))
      rw [hcnt, h4]

theorem foldl_scanByte_invEx {content : List Nat} (hshort : ShortLines content)
    (c : List Nat) : ∀ (r rest : List Nat) (s : ScanSt × Nat),
    r ++ (c ++ rest) = content → InvEx content r s →
    InvEx content (r ++ c) (c.foldl scanByte s) := by
  induction c with
  | nil =>
    intro r rest s hpre h
    simpa using h
  | cons b c ih =>
    intro r rest s hpre h
    have hnext : r ++ b :: (c ++ rest) = content := by
      simpa using hpre
    have h1 := scanByte_invEx hshort b (c ++ rest) hnext h
    have h2 := ih (r ++ [b]) rest _ (by simpa [List.append_assoc] using hpre) h1
    simpa [List.append_assoc] using h2

theorem endChunk_pos_of_le {s : ScanSt × Nat} (h : ¬ s.1.remLen + s.2 > MAX_LINE_BYTES) :
    (endChunk s).pos = s.1.pos := by
  unfold endChunk
  rw [if_neg h]

theorem endChunk_remLen_of_le {s : ScanSt × Nat} (h : ¬ s.1.remLen + s.2 > MAX_LINE_BYTES) :
    (endChunk s).remLen = s.1.remLen + s.2 := by
  rw [endChunk_remLen, if_neg h]

theorem endChunk_invEx {content r : List Nat} {s : ScanSt × Nat}
    (hshort : ShortLines content) (rest : List Nat) (hpre : r ++ rest = content)
    (h : InvEx content r s) : InvEx content r (endChunk s, 0) := by
  obtain ⟨h1, h2, h3, h4⟩ := h
  have htail : tailLen r < MAX_LINE_BYTES := hshort r rest hpre.symm
  have hnocap : ¬ s.1.remLen + s.2 > MAX_LINE_BYTES := by omega
  refine ⟨?_, ?_, ?_, ?_⟩
  · show (endChunk s).total = _
    rw [endChunk_total, h1]
  · show (endChunk s).remLen + 0 = _
    rw [endChunk_remLen_of_le hnocap]
    omega
  · show (endChunk s).pos + tailLen r = r.length
    rw [endChunk_pos_of_le hnocap]
    exact h3
  · show (endChunk s).index = _
    rw [endChunk_index, h4]

theorem processChunk_invEx {content r : List Nat} {st : ScanSt}
    (hshort : ShortLines content) (c rest : List Nat) (hpre : r ++ (c ++ rest) = content)
    (h : InvEx content r (st, 0)) : InvEx content (r ++ c) (processChunk st c, 0) := by
  have hinner := foldl_scanByte_invEx hshort c r rest (st, 0) hpre h
  have hpre2 : (r ++ c) ++ rest = content := by
    simpa [List.append_assoc] using hpre
  exact endChunk_invEx hshort rest hpre2 hinner

theorem foldl_processChunk_invEx {content : List Nat} (hshort : ShortLines content)
    (chunks : List (List Nat)) : ∀ (r rest : List Nat) (st : ScanSt),
    r ++ (chunks.join ++ rest) = content → InvEx content r (st, 0) →
    InvEx content (r ++ chunks.join) (chunks.foldl processChunk st, 0) := by
  induction chunks with
  | nil =>
    intro r rest st hpre h
    simpa using h
  | cons c chunks ih =>
    intro r rest st hpre h
    have hpre1 : r ++ (c ++ (chunks.join ++ rest)) = content := by
      simpa [List.append_assoc] using hpre
    have h1 := processChunk_invEx hshort c (chunks.join ++ rest) hpre1 h
    have h2 := ih (r ++ c) rest _ (by simpa [List.append_assoc] using hpre) h1
    simpa [List.append_assoc] using h2

theorem initSt_invEx (content : List Nat) : InvEx content [] (initSt, 0) := by
  refine ⟨rfl, by simp [initSt, tailLen_nil], by simp [initSt, tailLen_nil], ?_⟩
  show (initSt.index : List Nat) = idxSpec content 0
  unfold initSt idxSpec INDEX_INTERVAL
  simp

/-- Exact description of `open` on files without overlong lines: the total is
the oracle line count and the index holds exactly the intended byte offsets of
every `INDEX_INTERVAL`-th line. -/
theorem openScan_exact {content : List Nat} {chunks : List (List Nat)}
    (hv : ValidChunks content chunks) (hshort : ShortLines content) :
    (openScan chunks).total = totalLines content ∧
    (openScan chunks).index = idxSpec content (totalLines content) := by
  have hpre : [] ++ (chunks.join ++ []) = content := by
    simpa using hv.1
  have hinv := foldl_processChunk_invEx hshort chunks [] [] initSt hpre (initSt_invEx content)
  rw [List.nil_append, hv.1] at hinv
  set st := chunks.foldl processChunk initSt with hst
  have h1 : st.total = countNL content := hinv.1
  have h2 : st.remLen + 0 = tailLen content := hinv.2.1
  have h3 : st.pos + tailLen content = content.length := hinv.2.2.1
  have h4 : st.index = idxSpec content (countNL content) := hinv.2.2.2
  unfold openScan finishScan
  rw [← hst]
  have hform := totalLines_formula content
  by_cases hrem : st.remLen > 0
  · rw [if_pos hrem]
    have htail : tailLen content ≠ 0 := by omega
    have htot : st.total + 1 = totalLines content := by
      rw [hform, if_neg htail, h1]
    have hofftot : lineOffset content (totalLines content) = content.length := by
      unfold lineOffset
      rw [dropLines_totalLines]
      simp
    refine ⟨htot, ?_⟩
    show pushIdx (st.total + 1) st.index (st.pos + st.remLen) = _
    have hpos : st.pos + st.remLen = lineOffset content (st.total + 1) := by
      rw [htot, hofftot]
      omega
    rw [hpos, h4, h1]
    have hstep := idxSpec_succ content (countNL content)
    rw [← hstep]
    have hone : countNL content + 1 = totalLines content := by omega
    rw [hone]
  · rw [if_neg hrem]
    have htail : tailLen content = 0 := by omega
    have htot : st.total = totalLines content := by
      rw [hform, if_pos htail, h1]
      omega
    refine ⟨htot, ?_⟩
    rw [h4, ← h1, htot]

/-! ### UTF-8 decoding

`read_lines` decodes bytes with `String::from_utf8_lossy` and `mmap_search`
measures columns with `str::from_utf8` + `chars().count()`.  Both are modelled
at the byte level.  `decode1` consumes one UTF-8 character (or one maximal
ill-formed subpart, per the replacement behaviour of the Rust standard
library) from the front of a byte list. -/

/-- The UTF-8 encoding of U+FFFD, the replacement character. -/
def FFFD : List Nat := [239, 191, 189]

def isCont (b : Nat) : Bool := 128 ≤ b && b ≤ 191

/-- Decode one character: `(some bytes, rest)` for a well-formed character,
`(none, rest)` after consuming a maximal ill-formed subpart. -/
def decode1 (b : Nat) (r : List Nat) : Option (List Nat) × List Nat :=
  if b < 128 then (some [b], r)
  else if 194 ≤ b ∧ b ≤ 223 then
    match r with
    | c :: r2 => if isCont c then (some [b, c], r2) else (none, r)
    | [] => (none, [])
  else if 224 ≤ b ∧ b ≤ 239 then
    match r with
    | c :: r2 =>
      if (if b = 224 then 160 else 128) ≤ c ∧ c ≤ (if b = 237 then 159 else 191) then
        match r2 with
        | d :: r3 => if isCont d then (some [b, c, d], r3) else (none, r2)
        | [] => (none, [])
      else (none, r)
    | [] => (none, [])
  else if 240 ≤ b ∧ b ≤ 244 then
    match r with
    | c :: r2 =>
      if (if b = 240 then 144 else 128) ≤ c ∧ c ≤ (if b = 244 then 143 else 191) then
        match r2 with
        | d :: r3 =>
          if isCont d then
            match r3 with
            | e :: r4 => if isCont e then (some [b, c, d, e], r4) else (none, r3)
            | [] => (none, [])
          else (none, r2)
        | [] => (none, [])
      else (none, r)
    | [] => (none, [])
  else (none, r)

theorem decode1_rest_le (b : Nat) (r : List Nat) : (decode1 b r).2.length ≤ r.length := by
  unfold decode1
  repeat' split
  all_goals first
  | rfl
  | (simp; omega)
  | simp
  | omega

/-- Fuel-driven worker for `fromUtf8Lossy`. -/
def fromUtf8LossyGo : Nat → List Nat → List Nat
  | _, [] => []
  | 0, _ :: _ => []
  | f + 1, b :: r => ((decode1 b r).1.getD FFFD) ++ fromUtf8LossyGo f (decode1 b r).2

theorem fromUtf8LossyGo_eq (f : Nat) :
    ∀ (g : Nat) (l : List Nat), l.length ≤ f → l.length ≤ g →
      fromUtf8LossyGo f l = fromUtf8LossyGo g l := by
  induction f with
  | zero =>
    intro g l hf _
    have : l = [] := List.eq_nil_of_length_eq_zero (by omega)
    subst this
    cases g <;> rfl
  | succ f ih =>
    intro g l hf hg
    match l with
    | [] => cases g <;> rfl
    | b :: r =>
      match g with
      | 0 => simp at hg
      | g + 1 =>
        show ((decode1 b r).1.getD FFFD) ++ fromUtf8LossyGo f (decode1 b r).2 =
          ((decode1 b r).1.getD FFFD) ++ fromUtf8LossyGo g (decode1 b r).2
        have hle := decode1_rest_le b r
        simp at hf hg
        rw [ih g (decode1 b r).2 (by omega) (by omega)]

/-- `String::from_utf8_lossy` at the byte level: well-formed characters are
copied, each maximal ill-formed subpart becomes one replacement character. -/
def fromUtf8Lossy (l : List Nat) : List Nat := fromUtf8LossyGo l.length l

theorem fromUtf8Lossy_nil : fromUtf8Lossy [] = [] := rfl

theorem fromUtf8Lossy_cons (b : Nat) (r : List Nat) :
    fromUtf8Lossy (b :: r) =
      ((decode1 b r).1.getD FFFD) ++ fromUtf8Lossy (decode1 b r).2 := by
  show fromUtf8LossyGo (r.length + 1) (b :: r) = _
  show ((decode1 b r).1.getD FFFD) ++ fromUtf8LossyGo r.length (decode1 b r).2 = _
  have hle := decode1_rest_le b r
  rw [fromUtf8LossyGo_eq r.length _ _ (by omega) (Nat.le_refl _)]
  rfl

theorem decode1_ascii {b : Nat} (hb : b < 128) (r : List Nat) :
    decode1 b r = (some [b], r) := by
  unfold decode1
  rw [if_pos hb]

/-- Structural characterisation of `decode1`: a well-formed character is
returned verbatim with the rest; an ill-formed subpart consumes at least one
byte, all of them at or above 128. -/
theorem decode1_spec (b : Nat) (r : List Nat) :
    (∃ em r2, decode1 b r = (some em, r2) ∧ em ++ r2 = b :: r ∧ em ≠ []) ∨
    (∃ pre r2, decode1 b r = (none, r2) ∧ pre ++ r2 = b :: r ∧ pre ≠ [] ∧
      ∀ x ∈ pre, 128 ≤ x) := by
  by_cases h1 : b < 128
  · exact Or.inl ⟨[b], r, decode1_ascii h1 r, rfl, by simp⟩
  · have hb128 : 128 ≤ b := by omega
    by_cases h2 : 194 ≤ b ∧ b ≤ 223
    · rcases r with _ | ⟨c, r2⟩
      · refine Or.inr ⟨[b], [], ?_, rfl, by simp, ?_⟩
        · unfold decode1
          rw [if_neg h1, if_pos h2]
        · intro x hx
          simp at hx
          omega
      · by_cases hc : isCont c
        · refine Or.inl ⟨[b, c], r2, ?_, rfl, by simp⟩
          unfold decode1
          rw [if_neg h1, if_pos h2]
          show (if isCont c then _ else _) = _
          rw [if_pos hc]
        · refine Or.inr ⟨[b], c :: r2, ?_, rfl, by simp, ?_⟩
          · unfold decode1
            rw [if_neg h1, if_pos h2]
            show (if isCont c then _ else _) = _
            rw [if_neg hc]
          · intro x hx
            simp at hx
            omega
    · by_cases h3 : 224 ≤ b ∧ b ≤ 239
      · have hlo : (128 : Nat) ≤ (if b = 224 then 160 else 128) := by
          split <;> omega
        rcases r with _ | ⟨c, r2⟩
        · refine Or.inr ⟨[b], [], ?_, rfl, by simp, ?_⟩
          · unfold decode1
            rw [if_neg h1, if_neg h2, if_pos h3]
          · intro x hx
            simp at hx
            omega
        · by_cases hsec : (if b = 224 then 160 else 128) ≤ c ∧ c ≤ (if b = 237 then 159 else 191)
          · have hc128 : 128 ≤ c := le_trans hlo hsec.1
            rcases r2 with _ | ⟨d, r3⟩
            · refine Or.inr ⟨[b, c], [], ?_, rfl, by simp, ?_⟩
              · unfold decode1
                rw [if_neg h1, if_neg h2, if_pos h3]
                show (if _ ≤ c ∧ c ≤ _ then _ else _) = _
                rw [if_pos hsec]
              · intro x hx
                simp at hx
                rcases hx with rfl | rfl <;> omega
            · by_cases hd : isCont d
              · refine Or.inl ⟨[b, c, d], r3, ?_, rfl, by simp⟩
                unfold decode1
                rw [if_neg h1, if_neg h2, if_pos h3]
                show (if _ ≤ c ∧ c ≤ _ then _ else _) = _
                rw [if_pos hsec]
                show (if isCont d then _ else _) = _
                rw [if_pos hd]
              · refine Or.inr ⟨[b, c], d :: r3, ?_, rfl, by simp, ?_⟩
                · unfold decode1
                  rw [if_neg h1, if_neg h2, if_pos h3]
                  show (if _ ≤ c ∧ c ≤ _ then _ else _) = _
                  rw [if_pos hsec]
                  show (if isCont d then _ else _) = _
                  rw [if_neg hd]
                · intro x hx
                  simp at hx
                  rcases hx with rfl | rfl <;> omega
          · refine Or.inr ⟨[b], c :: r2, ?_, rfl, by simp, ?_⟩
            · unfold decode1
              rw [if_neg h1, if_neg h2, if_pos h3]
              show (if _ ≤ c ∧ c ≤ _ then _ else _) = _
              rw [if_neg hsec]
            · intro x hx
              simp at hx
              omega
      · by_cases h4 : 240 ≤ b ∧ b ≤ 244
        · have hlo : (128 : Nat) ≤ (if b = 240 then 144 else 128) := by
            split <;> omega
          rcases r with _ | ⟨c, r2⟩
          · refine Or.inr ⟨[b], [], ?_, rfl, by simp, ?_⟩
            · unfold decode1
              rw [if_neg h1, if_neg h2, if_neg h3, if_pos h4]
            · intro x hx
              simp at hx
              omega
          · by_cases hsec : (if b = 240 then 144 else 128) ≤ c ∧ c ≤ (if b = 244 then 143 else 191)
            · have hc128 : 128 ≤ c := le_trans hlo hsec.1
              rcases r2 with _ | ⟨d, r3⟩
              · refine Or.inr ⟨[b, c], [], ?_, rfl, by simp, ?_⟩
                · unfold decode1
                  rw [if_neg h1, if_neg h2, if_neg h3, if_pos h4]
                  show (if _ ≤ c ∧ c ≤ _ then _ else _) = _
                  rw [if_pos hsec]
                · intro x hx
                  simp at hx
                  rcases hx with rfl | rfl <;> omega
              · by_cases hd : isCont d
                · rcases r3 with _ | ⟨e, r4⟩
                  · refine Or.inr ⟨[b, c, d], [], ?_, rfl, by simp, ?_⟩
                    · unfold decode1
                      rw [if_neg h1, if_neg h2, if_neg h3, if_pos h4]
                      show (if _ ≤ c ∧ c ≤ _ then _ else _) = _
                      rw [if_pos hsec]
                      show (if isCont d then _ else _) = _
                      rw [if_pos hd]
                    · intro x hx
                      simp [isCont] at hx hd
                      rcases hx with rfl | rfl | rfl <;> omega
                  · by_cases he : isCont e
                    · refine Or.inl ⟨[b, c, d, e], r4, ?_, rfl, by simp⟩
                      unfold decode1
                      rw [if_neg h1, if_neg h2, if_neg h3, if_pos h4]
                      show (if _ ≤ c ∧ c ≤ _ then _ else _) = _
                      rw [if_pos hsec]
                      show (if isCont d then _ else _) = _
                      rw [if_pos hd]
                      show (if isCont e then _ else _) = _
                      rw [if_pos he]
                    · refine Or.inr ⟨[b, c, d], e :: r4, ?_, rfl, by simp, ?_⟩
                      · unfold decode1
                        rw [if_neg h1, if_neg h2, if_neg h3, if_pos h4]
                        show (if _ ≤ c ∧ c ≤ _ then _ else _) = _
                        rw [if_pos hsec]
                        show (if isCont d then _ else _) = _
                        rw [if_pos hd]
                        show (if isCont e then _ else _) = _
                        rw [if_neg he]
                      · intro x hx
                        simp [isCont] at hx hd
                        rcases hx with rfl | rfl | rfl <;> omega
                · refine Or.inr ⟨[b, c], d :: r3, ?_, rfl, by simp, ?_⟩
                  · unfold decode1
                    rw [if_neg h1, if_neg h2, if_neg h3, if_pos h4]
                    show (if _ ≤ c ∧ c ≤ _ then _ else _) = _
                    rw [if_pos hsec]
                    show (if isCont d then _ else _) = _
                    rw [if_neg hd]
                  · intro x hx
                    simp at hx
                    rcases hx with rfl | rfl <;> omega
            · refine Or.inr ⟨[b], c :: r2, ?_, rfl, by simp, ?_⟩
              · unfold decode1
                rw [if_neg h1, if_neg h2, if_neg h3, if_pos h4]
                show (if _ ≤ c ∧ c ≤ _ then _ else _) = _
                rw [if_neg hsec]
              · intro x hx
                simp at hx
                omega
        · refine Or.inr ⟨[b], r, ?_, rfl, by simp, ?_⟩
          · unfold decode1
            rw [if_neg h1, if_neg h2, if_neg h3, if_neg h4]
          · intro x hx
            simp at hx
            omega

theorem decode1_valid {b : Nat} {r em r2 : List Nat} (h : decode1 b r = (some em, r2)) :
    em ++ r2 = b :: r ∧ em ≠ [] := by
  rcases decode1_spec b r with ⟨em', r2', heq, hjoin, hne⟩ | ⟨pre, r2', heq, _, _, _⟩
  · rw [h] at heq
    simp at heq
    rw [heq.1, heq.2]
    exact ⟨hjoin, hne⟩
  · rw [h] at heq
    simp at heq

theorem decode1_err {b : Nat} {r r2 : List Nat} (h : decode1 b r = (none, r2)) :
    ∃ pre, pre ++ r2 = b :: r ∧ pre ≠ [] ∧ ∀ x ∈ pre, 128 ≤ x := by
  rcases decode1_spec b r with ⟨em', r2', heq, _, _⟩ | ⟨pre, r2', heq, hjoin, hne, hge⟩
  · rw [h] at heq
    simp at heq
  · rw [h] at heq
    simp at heq
    rw [← heq] at hjoin
    exact ⟨pre, hjoin, hne, hge⟩

/-- Fuel-driven worker for `utf8Chars?`. -/
def utf8CharsGo : Nat → List Nat → Option Nat
  | _, [] => some 0
  | 0, _ :: _ => none
  | f + 1, b :: r =>
    if (decode1 b r).1.isSome then (utf8CharsGo f (decode1 b r).2).map (· + 1) else none

theorem utf8CharsGo_eq (f : Nat) :
    ∀ (g : Nat) (l : List Nat), l.length ≤ f → l.length ≤ g →
      utf8CharsGo f l = utf8CharsGo g l := by
  induction f with
  | zero =>
    intro g l hf _
    have : l = [] := List.eq_nil_of_length_eq_zero (by omega)
    subst this
    cases g <;> rfl
  | succ f ih =>
    intro g l hf hg
    match l with
    | [] => cases g <;> rfl
    | b :: r =>
      match g with
      | 0 => simp at hg
      | g + 1 =>
        show (if (decode1 b r).1.isSome then (utf8CharsGo f (decode1 b r).2).map (· + 1)
            else none) =
          (if (decode1 b r).1.isSome then (utf8CharsGo g (decode1 b r).2).map (· + 1)
            else none)
        have hle := decode1_rest_le b r
        simp at hf hg
        rw [ih g (decode1 b r).2 (by omega) (by omega)]

/-- `str::from_utf8` plus `chars().count()`: `some n` when the bytes are valid
UTF-8 encoding `n` characters, `none` when invalid. -/
def utf8Chars? (l : List Nat) : Option Nat := utf8CharsGo l.length l

theorem utf8Chars?_nil : utf8Chars? [] = some 0 := rfl

theorem utf8Chars?_cons (b : Nat) (r : List Nat) :
    utf8Chars? (b :: r) =
      if (decode1 b r).1.isSome then (utf8Chars? (decode1 b r).2).map (· + 1) else none := by
  show utf8CharsGo (r.length + 1) (b :: r) = _
  show (if (decode1 b r).1.isSome then (utf8CharsGo r.length (decode1 b r).2).map (· + 1)
    else none) = _
  have hle := decode1_rest_le b r
  rw [utf8CharsGo_eq r.length _ _ (by omega) (Nat.le_refl _)]
  rfl

/-- On pure ASCII bytes, lossy decoding is the identity. -/
theorem fromUtf8Lossy_ascii (l : List Nat) (h : ∀ x ∈ l, x < 128) :
    fromUtf8Lossy l = l := by
  match l with
  | [] => exact fromUtf8Lossy_nil
  | b :: r =>
    have hb : b < 128 := h b (by simp)
    rw [fromUtf8Lossy_cons, decode1_ascii hb]
    have ih := fromUtf8Lossy_ascii r (fun x hx => h x (by simp [hx]))
    simp [ih]
termination_by l.length
decreasing_by
  simp

/-- Lossy decoding preserves the line structure of a byte list: newline count,
emptiness, and whether the last byte is a newline. -/
theorem fromUtf8Lossy_struct (l : List Nat) :
    countNL (fromUtf8Lossy l) = countNL l ∧
    (fromUtf8Lossy l = [] ↔ l = []) ∧
    ((fromUtf8Lossy l).getLast? = some 10 ↔ l.getLast? = some 10) := by
  match l with
  | [] => simp [fromUtf8Lossy_nil]
  | b :: r =>
    rw [fromUtf8Lossy_cons]
    have hrec : (decode1 b r).2.length < (b :: r).length := by
      have := decode1_rest_le b r
      simp
      omega
    have ih := fromUtf8Lossy_struct (decode1 b r).2
    rcases decode1_spec b r with ⟨em, r2, heq, hjoin, hne⟩ | ⟨pre, r2, heq, hjoin, hne, hge⟩
    · rw [heq]
      simp only [Option.getD_some]
      rw [heq] at ih
      dsimp only at ih
      have hem10 : countNL em + countNL r2 = countNL (b :: r) := by
        rw [← hjoin, countNL_append]
      refine ⟨?_, ?_, ?_⟩
      · rw [countNL_append, ih.1]
        omega
      · constructor
        · intro hz
          exact absurd (List.append_eq_nil.mp hz).1 hne
        · intro hz
          simp at hz
      · rcases Decidable.em (r2 = []) with hr2 | hr2
        · subst hr2
          rw [(ih.2.1).mpr rfl]
          simp at hjoin ⊢
          rw [hjoin]
        · have hlr2 : fromUtf8Lossy r2 ≠ [] := fun hz => hr2 ((ih.2.1).mp hz)
          rw [List.getLast?_append_of_ne_nil _ hlr2, ih.2.2, ← hjoin,
            List.getLast?_append_of_ne_nil _ hr2]
    · rw [heq]
      simp only [Option.getD_none]
      rw [heq] at ih
      dsimp only at ih
      have hpre10 : countNL pre = 0 := by
        unfold countNL
        rw [List.count_eq_zero]
        intro hmem
        have := hge 10 hmem
        omega
      have hcnt : countNL r2 = countNL (b :: r) := by
        rw [← hjoin, countNL_append, hpre10]
        omega
      have hFFFD : countNL FFFD = 0 := by decide
      refine ⟨?_, ?_, ?_⟩
      · rw [countNL_append, ih.1, hFFFD, hcnt]
        omega
      · constructor
        · intro hz
          have := (List.append_eq_nil.mp hz).1
          simp [FFFD] at this
        · intro hz
          simp at hz
      · rcases Decidable.em (r2 = []) with hr2 | hr2
        · subst hr2
          rw [(ih.2.1).mpr rfl]
          simp at hjoin
          constructor
          · intro hz
            simp [FFFD] at hz
          · intro hz
            rw [← hjoin] at hz
            have hx := List.mem_of_mem_getLast? hz
            have := hge 10 hx
            omega
        · have hlr2 : fromUtf8Lossy r2 ≠ [] := fun hz => hr2 ((ih.2.1).mp hz)
          rw [List.getLast?_append_of_ne_nil _ hlr2, ih.2.2, ← hjoin,
            List.getLast?_append_of_ne_nil _ hr2]
termination_by l.length
decreasing_by
  exact hrec

theorem tailLen_eq_zero_iff (l : List Nat) :
    tailLen l = 0 ↔ (l = [] ∨ l.getLast? = some 10) := by
  constructor
  · intro hz
    rcases Decidable.em (l = []) with hnil | hnil
    · exact Or.inl hnil
    · right
      rcases List.eq_nil_or_concat l with rfl | ⟨l', x, rfl⟩
      · exact absurd rfl hnil
      · rw [List.concat_eq_append] at hz ⊢
        rcases Decidable.em (x = 10) with hx | hx
        · subst hx
          simp
        · rw [tailLen_append_ne _ hx] at hz
          omega
  · intro h
    rcases h with rfl | h
    · exact tailLen_nil
    · exact tailLen_zero_of_last10 h

/-- Lossy decoding does not change the number of oracle lines. -/
theorem totalLines_fromUtf8Lossy (l : List Nat) :
    totalLines (fromUtf8Lossy l) = totalLines l := by
  have h := fromUtf8Lossy_struct l
  rw [totalLines_formula, totalLines_formula, h.1]
  have hiff : tailLen (fromUtf8Lossy l) = 0 ↔ tailLen l = 0 := by
    rw [tailLen_eq_zero_iff, tailLen_eq_zero_iff]
    constructor
    · intro hz
      rcases hz with hz | hz
      · exact Or.inl ((h.2.1).mp hz)
      · exact Or.inr ((h.2.2).mp hz)
    · intro hz
      rcases hz with hz | hz
      · exact Or.inl ((h.2.1).mpr hz)
      · exact Or.inr ((h.2.2).mpr hz)
  by_cases hz : tailLen l = 0
  · rw [if_pos hz, if_pos (hiff.mpr hz)]
  · rw [if_neg hz, if_neg (fun hc => hz (hiff.mp hc))]

/-! ### The model of `LargeFilePreview::read_lines` (models.rs lines 208-384)

The function takes the sparse index built by `open`, a start line and a line
count.  Environmental effects are explicit: `cache` is the currently cached
mmap window (aligned offset and length), `mmapOk` tells whether a fresh
mapping attempt succeeds.  The returned text is a byte list. -/

def PAGE_SIZE : Nat := 4096

def EST_LINE_LEN : Nat := 120

def MMAP_CAP : Nat := 8 * 1024 * 1024

/-- Segment postprocessing performed by Rust `str::lines`: the terminating
newline is removed together with one carriage return directly before it. -/
def rustStrip (seg : List Nat) : List Nat :=
  if seg.getLast? = some 10 then
    if seg.dropLast.getLast? = some 13 then seg.dropLast.dropLast else seg.dropLast
  else seg

/-- Rust `str::lines` at the byte level. -/
def rustLines (l : List Nat) : List (List Nat) := (splitKeep l).map rustStrip

/-- Anchor resolution (models.rs lines 215-225): find `(base_offset,
base_line)` from the sparse index. -/
def baseAnchor (index : List Nat) (start : Nat) : Nat × Nat :=
  if start / INDEX_INTERVAL = 0 then (0, 0)
  else if start / INDEX_INTERVAL - 1 < index.length then
    (index.getD (start / INDEX_INTERVAL - 1) 0, start / INDEX_INTERVAL * INDEX_INTERVAL)
  else (0, 0)

/-- Page-aligned window start (models.rs line 232). -/
def alignedOf (baseOff : Nat) : Nat := baseOff / PAGE_SIZE * PAGE_SIZE

/-- Desired window length (models.rs lines 229-238): a heuristic estimate for
`count` plus one interval of lines, shifted by the alignment delta and capped
at 8 MiB. -/
def mapLenOf (cnt baseOff : Nat) : Nat :=
  min ((baseOff - alignedOf baseOff) + (cnt + INDEX_INTERVAL) * EST_LINE_LEN) MMAP_CAP

/-- The bytes visible through a mapped window of length `cl` at offset `ca`,
from `baseOff` to the end of the window. -/
def cacheSlice (content : List Nat) (ca cl baseOff : Nat) : List Nat :=
  ((content.drop ca).take cl).drop (baseOff - ca)

/-- The emit loop of the mmap path (models.rs lines 260-275 and 320-336):
up to `cnt` decoded lines, each re-terminated with a newline; a line longer
than `MAX_LINE_BYTES` is truncated and ends the output. -/
def emitLines : List (List Nat) → Nat → List Nat
  | _, 0 => []
  | [], _ + 1 => []
  | l :: rest, n + 1 =>
    if l.length > MAX_LINE_BYTES then fromUtf8Lossy (l.take MAX_LINE_BYTES) ++ [10]
    else l ++ 10 :: emitLines rest n

/-- Reading from a window slice: decode lossily, split into lines, skip
`skip` of them (`none` when the window holds fewer), then emit. -/
def mmapEmit (slice : List Nat) (skip cnt : Nat) : Option (List Nat) :=
  if (rustLines (fromUtf8Lossy slice)).length < skip then none
  else some (emitLines ((rustLines (fromUtf8Lossy slice)).drop skip) cnt)

/-- The skip loop of the sequential fallback (models.rs lines 354-361). -/
def seqSkip (rest : List Nat) : Nat → List Nat
  | 0 => rest
  | n + 1 => if (readUntil rest).1 = [] then rest else seqSkip (readUntil rest).2 n

/-- The emit loop of the sequential fallback (models.rs lines 362-380). -/
def seqEmit (rest : List Nat) (cnt : Nat) (acc : List Nat) : List Nat :=
  match cnt with
  | 0 => acc
  | n + 1 =>
    if (readUntil rest).1 = [] then acc
    else if (readUntil rest).1.length > MAX_LINE_BYTES then
      acc ++ fromUtf8Lossy ((readUntil rest).1.take MAX_LINE_BYTES) ++ [10]
    else
      seqEmit (readUntil rest).2 n
        (if (acc ++ fromUtf8Lossy (readUntil rest).1).getLast? = some 10 then
          acc ++ fromUtf8Lossy (readUntil rest).1
        else acc ++ fromUtf8Lossy (readUntil rest).1 ++ [10])

/-- The whole sequential fallback (models.rs lines 349-381): seek to the
anchor, skip `start - base_line` lines, then read `cnt` lines. -/
def seqFallback (content : List Nat) (baseOff baseLine start cnt : Nat) : List Nat :=
  seqEmit (seqSkip (content.drop baseOff) (start - baseLine)) cnt []

/-- The full `read_lines` body. -/
def readLinesModel (content index : List Nat) (start cnt : Nat)
    (cache : Option (Nat × Nat)) (mmapOk : Bool) : List Nat :=
  let baseOff := (baseAnchor index start).1
  let baseLine := (baseAnchor index start).2
  let fb := seqFallback content baseOff baseLine start cnt
  if 0 < mapLenOf cnt baseOff then
    match
      match cache with
      | some (ca, cl) =>
        if ca ≤ baseOff ∧ baseOff + mapLenOf cnt baseOff ≤ ca + cl then
          mmapEmit (cacheSlice content ca cl baseOff) (start - baseLine) cnt
        else none
      | none => none
    with
    | some out => out
    | none =>
      if content.length ≤ alignedOf baseOff then fb
      else
        if 0 < min (mapLenOf cnt baseOff) (content.length - alignedOf baseOff) ∧ mmapOk then
          match
            mmapEmit
              (cacheSlice content (alignedOf baseOff)
                (min (mapLenOf cnt baseOff) (content.length - alignedOf baseOff)) baseOff)
              (start - baseLine) cnt
          with
          | some out => out
          | none => fb
        else fb
  else fb

/-! ### The model of `LargeFilePreview::mmap_search` (models.rs lines 391-503)

The scan loop is modelled with explicit fuel, since on an empty needle the
real loop does not terminate; `none` means the fuel ran out, which on the
chosen fuel happens exactly in that non-terminating situation. -/

/-- `u8::to_ascii_lowercase`. -/
def toLower (b : Nat) : Nat := if 65 ≤ b ∧ b ≤ 90 then b + 32 else b

/-- Whether `needle` occurs at the very start of `hay`. -/
def leadsWith : List Nat → List Nat → Bool
  | [], _ => true
  | _ :: _, [] => false
  | a :: x, b :: y => a = b && leadsWith x y

/-- `memchr::memmem::find`: position of the leftmost occurrence. -/
def findSub (hay needle : List Nat) : Option Nat :=
  if leadsWith needle hay then some 0
  else
    match hay with
    | [] => none
    | _ :: t => (findSub t needle).map (· + 1)

/-- Byte offset of the line start before `abs`: one past the last newline in
`hay[..abs]`, or 0 (models.rs lines 453-457). -/
def lineStartOf (hay : List Nat) (abs : Nat) : Nat := abs - tailLen (hay.take abs)

/-- Byte offset of the line end after `abs`: the next newline position, or the
end of the haystack (models.rs lines 487-491). -/
def lineEndOf (hay : List Nat) (abs : Nat) : Nat :=
  abs + ((hay.drop abs).takeWhile (fun b => b ≠ 10)).length

/-- The `(line, column, length)` record for a match at byte `abs`
(models.rs lines 452-464): line counts newlines in the lowered haystack,
column counts characters of the original bytes from the line start when they
are valid UTF-8 (0 otherwise), length counts characters of the used needle
when valid (its byte length otherwise). -/
def recordOf (hayOrig hay needleUsed : List Nat) (abs : Nat) : Nat × Nat × Nat :=
  (countNL (hay.take abs),
   (utf8Chars? ((hayOrig.drop (lineStartOf hay abs)).take (abs - lineStartOf hay abs))).getD 0,
   (utf8Chars? needleUsed).getD needleUsed.length)

/-- The sample line for a match: the original bytes of the surrounding line,
kept only when they are valid UTF-8 (models.rs lines 492-496). -/
def sampleOf (hayOrig hay : List Nat) (abs : Nat) : Option (List Nat) :=
  if (utf8Chars? ((hayOrig.drop (lineStartOf hay abs)).take
      (lineEndOf hay abs - lineStartOf hay abs))).isSome then
    some ((hayOrig.drop (lineStartOf hay abs)).take (lineEndOf hay abs - lineStartOf hay abs))
  else none

/-- The scan loop (models.rs lines 449-499), with explicit fuel.  State:
`start` scan position, `count`, collected `samples`, `first` match record and
capped `matches` records. -/
def searchGo (hayOrig hay needle : List Nat) :
    Nat → Nat → Nat → List (List Nat) → Option (Nat × Nat × Nat) → List (Nat × Nat × Nat) →
    Option (Nat × List (List Nat) × Option (Nat × Nat × Nat) × List (Nat × Nat × Nat))
  | 0, _, _, _, _, _ => none
  | fuel + 1, start, count, samples, first, matchesPos =>
    match findSub (hay.drop start) needle with
    | none => some (count, samples, first, matchesPos)
    | some pos =>
      searchGo hayOrig hay needle fuel (start + pos + needle.length) (count + 1)
        (match sampleOf hayOrig hay (start + pos) with
          | some s => if samples.length < 5 then samples ++ [s] else samples
          | none => samples)
        (match first with
          | none => some (recordOf hayOrig hay needle (start + pos))
          | some f => some f)
        (if matchesPos.length < 1000 then matchesPos ++ [recordOf hayOrig hay needle (start + pos)]
          else matchesPos)

/-- Result record of a search: total count, sample lines, extra allocation in
bytes, first match record, capped match records.  (The elapsed wall time of
the Rust function is not modelled.) -/
structure SearchRes where
  count : Nat
  samples : List (List Nat)
  extra : Nat
  first : Option (Nat × Nat × Nat)
  matchesPos : List (Nat × Nat × Nat)
deriving Repr, DecidableEq

/-- The whole `mmap_search` body.  `none` only when the scan loop does not
finish within `content.length + 1` steps (possible only for an empty
needle). -/
def mmapSearch (content needle : List Nat) (ignoreCase : Bool) : Option SearchRes :=
  if content.length = 0 then some ⟨0, [], 0, none, []⟩
  else
    match
      searchGo content (if ignoreCase then content.map toLower else content)
        (if ignoreCase then needle.map toLower else needle)
        (content.length + 1) 0 0 [] none []
    with
    | some (c, s, f, m) => some ⟨c, s, if ignoreCase then content.length else 0, f, m⟩
    | none => none

/-- `mmap_search` including the fallible `Mmap::map` call (models.rs line
426): the `?` operator propagates a mapping failure as an error. -/
def mmapSearchRun (mapOk : Bool) (content needle : List Nat) (ignoreCase : Bool) :
    Except String (Option SearchRes) :=
  if content.length = 0 then Except.ok (some ⟨0, [], 0, none, []⟩)
  else if mapOk then Except.ok (mmapSearch content needle ignoreCase)
  else Except.error "mmap failed"

/-- Reference list of the non-overlapping occurrence positions, scanning left
to right and resuming just past each occurrence. -/
def occsGo (hay needle : List Nat) : Nat → Nat → List Nat
  | 0, _ => []
  | fuel + 1, start =>
    match findSub (hay.drop start) needle with
    | none => []
    | some pos => (start + pos) :: occsGo hay needle fuel (start + pos + needle.length)

def occs (hay needle : List Nat) : List Nat := occsGo hay needle (hay.length + 1) 0

theorem leadsWith_length {nd l : List Nat} (h : leadsWith nd l = true) :
    nd.length ≤ l.length := by
  induction nd generalizing l with
  | nil => simp
  | cons a x ih =>
    match l with
    | [] => simp [leadsWith] at h
    | b :: y =>
      simp only [leadsWith, Bool.and_eq_true] at h
      have := ih h.2
      simp
      omega

theorem findSub_some_bound {l nd : List Nat} {p : Nat} (h : findSub l nd = some p) :
    p + nd.length ≤ l.length := by
  induction l generalizing p with
  | nil =>
    unfold findSub at h
    by_cases hl : leadsWith nd []
    · rw [if_pos hl] at h
      have := leadsWith_length hl
      simp at h
      omega
    · rw [if_neg hl] at h
      simp at h
  | cons b t ih =>
    unfold findSub at h
    by_cases hl : leadsWith nd (b :: t)
    · rw [if_pos hl] at h
      have := leadsWith_length hl
      simp at h
      subst h
      simpa using this
    · rw [if_neg hl] at h
      simp at h
      obtain ⟨q, hq, rfl⟩ := h
      have := ih hq
      simp
      omega

theorem take_append_cap {α : Type} (cap : Nat) (acc : List α) (s : α) (rest : List α)
    (h : acc.length < cap) :
    acc ++ ((s :: rest).take (cap - acc.length)) =
      (acc ++ [s]) ++ rest.take (cap - (acc ++ [s]).length) := by
  have hc : cap - acc.length = (cap - (acc.length + 1)) + 1 := by omega
  rw [hc, List.take_succ_cons]
  simp

theorem take_append_full {α : Type} (cap : Nat) (acc : List α) (l : List α)
    (h : ¬ acc.length < cap) : acc ++ (l.take (cap - acc.length)) = acc := by
  have hc : cap - acc.length = 0 := by omega
  rw [hc, List.take_zero, List.append_nil]

theorem occsGo_succ (hay nd : List Nat) (f start : Nat) :
    occsGo hay nd (f + 1) start =
      match findSub (hay.drop start) nd with
      | none => []
      | some pos => (start + pos) :: occsGo hay nd f (start + pos + nd.length) := rfl

theorem searchGo_succ (hayOrig hay nd : List Nat) (f start count : Nat)
    (samples : List (List Nat)) (first : Option (Nat × Nat × Nat))
    (matchesPos : List (Nat × Nat × Nat)) :
    searchGo hayOrig hay nd (f + 1) start count samples first matchesPos =
      match findSub (hay.drop start) nd with
      | none => some (count, samples, first, matchesPos)
      | some pos =>
        searchGo hayOrig hay nd f (start + pos + nd.length) (count + 1)
          (match sampleOf hayOrig hay (start + pos) with
            | some s => if samples.length < 5 then samples ++ [s] else samples
            | none => samples)
          (match first with
            | none => some (recordOf hayOrig hay nd (start + pos))
            | some f => some f)
          (if matchesPos.length < 1000 then
            matchesPos ++ [recordOf hayOrig hay nd (start + pos)]
          else matchesPos) := rfl

/-- Full characterisation of the scan loop by the occurrence list: count,
samples (capped at 5), first record and match records (capped at 1000). -/
theorem searchGo_state (hayOrig hay nd : List Nat) (hnd : nd ≠ []) :
    ∀ (fuel start count : Nat) (samples : List (List Nat))
      (first : Option (Nat × Nat × Nat)) (matchesPos : List (Nat × Nat × Nat)),
    hay.length + 1 ≤ fuel + start → 1 ≤ fuel →
    searchGo hayOrig hay nd fuel start count samples first matchesPos =
      some (count + (occsGo hay nd fuel start).length,
        samples ++ ((occsGo hay nd fuel start).filterMap (sampleOf hayOrig hay)).take
          (5 - samples.length),
        (match first with
          | some f => some f
          | none => ((occsGo hay nd fuel start).head?).map (recordOf hayOrig hay nd)),
        matchesPos ++ ((occsGo hay nd fuel start).map (recordOf hayOrig hay nd)).take
          (1000 - matchesPos.length)) := by
  intro fuel
  induction fuel with
  | zero =>
    intro start count samples first matchesPos h1 h2
    omega
  | succ f ih =>
    intro start count samples first matchesPos h1 h2
    have hdl : (hay.drop start).length = hay.length - start := List.length_drop start hay
    rcases hfind : findSub (hay.drop start) nd with _ | pos
    · have hoc : occsGo hay nd (f + 1) start = [] := by
        rw [occsGo_succ, hfind]
      rw [searchGo_succ, hfind, hoc]
      rcases first with _ | fv <;> simp
    · have hnd1 : 1 ≤ nd.length := by
        rcases nd with _ | _
        · exact absurd rfl hnd
        · simp
      have hbound := findSub_some_bound hfind
      have hstart' : hay.length + 1 ≤ f + (start + pos + nd.length) := by omega
      have hf1 : 1 ≤ f := by omega
      have hoc : occsGo hay nd (f + 1) start =
          (start + pos) :: occsGo hay nd f (start + pos + nd.length) := by
        rw [occsGo_succ, hfind]
      rw [searchGo_succ, hfind]
      dsimp only
      rw [ih _ _ _ _ _ hstart' hf1, hoc]
      refine congrArg some ?_
      simp only [Prod.mk.injEq]
      refine ⟨?_, ?_, ?_, ?_⟩
      · simp
        omega
      · rw [List.filterMap_cons]
        rcases hsmp : sampleOf hayOrig hay (start + pos) with _ | s
        · dsimp only
        · dsimp only
          by_cases hlt : samples.length < 5
          · rw [if_pos hlt, take_append_cap _ _ _ _ hlt]
          · rw [if_neg hlt, take_append_full _ _ _ hlt, take_append_full _ _ _ hlt]
      · rcases first with _ | fv
        · dsimp only
          simp
        · dsimp only
      · rw [List.map_cons]
        by_cases hlt : matchesPos.length < 1000
        · rw [if_pos hlt, take_append_cap _ _ _ _ hlt]
        · rw [if_neg hlt, take_append_full _ _ _ hlt, take_append_full _ _ _ hlt]

/-- The haystack actually scanned: lowered when case-insensitive. -/
def hayOf (content : List Nat) (ic : Bool) : List Nat :=
  if ic then content.map toLower else content

/-- The needle actually used: lowered when case-insensitive. -/
def ndOf (needle : List Nat) (ic : Bool) : List Nat :=
  if ic then needle.map toLower else needle

theorem hayOf_length (content : List Nat) (ic : Bool) :
    (hayOf content ic).length = content.length := by
  unfold hayOf
  cases ic <;> simp

theorem ndOf_ne_nil {needle : List Nat} (hnd : needle ≠ []) (ic : Bool) :
    ndOf needle ic ≠ [] := by
  unfold ndOf
  cases ic <;> simp [hnd]

/-- The result record that `mmap_search` produces, phrased via the occurrence
list. -/
def specRes (content needle : List Nat) (ic : Bool) : SearchRes :=
  ⟨(occs (hayOf content ic) (ndOf needle ic)).length,
   ((occs (hayOf content ic) (ndOf needle ic)).filterMap
     (sampleOf content (hayOf content ic))).take 5,
   if ic then content.length else 0,
   ((occs (hayOf content ic) (ndOf needle ic)).head?).map
     (recordOf content (hayOf content ic) (ndOf needle ic)),
   ((occs (hayOf content ic) (ndOf needle ic)).map
     (recordOf content (hayOf content ic) (ndOf needle ic))).take 1000⟩

theorem mmapSearch_spec (content needle : List Nat) (ic : Bool) (hnd : needle ≠ []) :
    mmapSearch content needle ic = some (specRes content needle ic) := by
  obtain ⟨n0, ns, rfl⟩ : ∃ n0 ns, needle = n0 :: ns := by
    rcases needle with _ | ⟨n0, ns⟩
    · exact absurd rfl hnd
    · exact ⟨n0, ns, rfl⟩
  unfold mmapSearch specRes
  by_cases hc : content.length = 0
  · rw [if_pos hc]
    have hcontent : content = [] := List.eq_nil_of_length_eq_zero hc
    subst hcontent
    cases ic <;> rfl
  · rw [if_neg hc]
    have hhaylen : (hayOf content ic).length = content.length := hayOf_length content ic
    have hndne : ndOf (n0 :: ns) ic ≠ [] := ndOf_ne_nil hnd ic
    have harg1 : (if ic then content.map toLower else content) = hayOf content ic := rfl
    have harg2 : (if ic then (n0 :: ns).map toLower else (n0 :: ns)) = ndOf (n0 :: ns) ic := rfl
    rw [harg1, harg2]
    have h := searchGo_state content (hayOf content ic) (ndOf (n0 :: ns) ic) hndne
      (content.length + 1) 0 0 [] none []
      (by rw [hhaylen]) (by omega)
    rw [h]
    dsimp only
    unfold occs
    rw [hhaylen]
    simp

theorem searchGo_empty (hayOrig hay : List Nat) :
    ∀ (fuel start count : Nat) (samples : List (List Nat))
      (first : Option (Nat × Nat × Nat)) (matchesPos : List (Nat × Nat × Nat)),
    searchGo hayOrig hay [] fuel start count samples first matchesPos = none := by
  intro fuel
  induction fuel with
  | zero => intros; rfl
  | succ f ih =>
    intro start count samples first matchesPos
    rw [searchGo_succ]
    have hfind : findSub (hay.drop start) [] = some 0 := by
      unfold findSub
      rw [if_pos (show leadsWith [] (hay.drop start) = true from rfl)]
    rw [hfind]
    dsimp only
    exact ih _ _ _ _ _

theorem occsGo_ge (hay nd : List Nat) :
    ∀ (fuel start x : Nat), x ∈ occsGo hay nd fuel start → start ≤ x := by
  intro fuel
  induction fuel with
  | zero =>
    intro start x hx
    simp [occsGo] at hx
  | succ f ih =>
    intro start x hx
    rw [occsGo_succ] at hx
    rcases hfind : findSub (hay.drop start) nd with _ | pos
    · rw [hfind] at hx
      simp at hx
    · rw [hfind] at hx
      dsimp only at hx
      rcases List.mem_cons.mp hx with rfl | hx
      · omega
      · have := ih _ _ hx
        omega

theorem occsGo_pairwise (hay nd : List Nat) (hnd : nd ≠ []) :
    ∀ (fuel start : Nat), List.Pairwise (· < ·) (occsGo hay nd fuel start) := by
  have hnd1 : 1 ≤ nd.length := by
    rcases nd with _ | _
    · exact absurd rfl hnd
    · simp
  intro fuel
  induction fuel with
  | zero =>
    intro start
    simp [occsGo]
  | succ f ih =>
    intro start
    rw [occsGo_succ]
    rcases hfind : findSub (hay.drop start) nd with _ | pos
    · simp
    · dsimp only
      refine List.pairwise_cons.mpr ⟨?_, ih _⟩
      intro y hy
      have := occsGo_ge hay nd f _ y hy
      omega

theorem findSub_leads {l nd : List Nat} {p : Nat} (h : findSub l nd = some p) :
    leadsWith nd (l.drop p) = true := by
  induction l generalizing p with
  | nil =>
    unfold findSub at h
    by_cases hl : leadsWith nd []
    · rw [if_pos hl] at h
      simp at h
      subst h
      simpa using hl
    · rw [if_neg hl] at h
      simp at h
  | cons b t ih =>
    unfold findSub at h
    by_cases hl : leadsWith nd (b :: t)
    · rw [if_pos hl] at h
      simp at h
      subst h
      simpa using hl
    · rw [if_neg hl] at h
      simp at h
      obtain ⟨q, hq, rfl⟩ := h
      have := ih hq
      simpa using this

theorem leadsWith_take {nd l : List Nat} (h : leadsWith nd l = true) :
    l.take nd.length = nd := by
  induction nd generalizing l with
  | nil => simp
  | cons a x ih =>
    match l with
    | [] => simp [leadsWith] at h
    | b :: y =>
      simp only [leadsWith, Bool.and_eq_true] at h
      obtain ⟨hab, hrest⟩ := h
      have hab2 : a = b := by simpa using hab
      subst hab2
      simp only [List.length_cons, List.take_succ_cons, ih hrest]

theorem occsGo_matchAt (hay nd : List Nat) :
    ∀ (fuel start p : Nat), p ∈ occsGo hay nd fuel start →
      (hay.drop p).take nd.length = nd := by
  intro fuel
  induction fuel with
  | zero =>
    intro start p hp
    simp [occsGo] at hp
  | succ f ih =>
    intro start p hp
    rw [occsGo_succ] at hp
    rcases hfind : findSub (hay.drop start) nd with _ | pos
    · rw [hfind] at hp
      simp at hp
    · rw [hfind] at hp
      dsimp only at hp
      rcases List.mem_cons.mp hp with rfl | hp
      · have hl := findSub_leads hfind
        rw [List.drop_drop] at hl
        first
        | exact leadsWith_take hl
        | (rw [Nat.add_comm pos start] at hl; exact leadsWith_take hl)
      · exact ih _ _ hp

theorem toLower_eq_ten {b : Nat} : toLower b = 10 ↔ b = 10 := by
  unfold toLower
  split <;> omega

theorem countNL_map_toLower (l : List Nat) : countNL (l.map toLower) = countNL l := by
  induction l with
  | nil => rfl
  | cons b r ih =>
    simp only [List.map_cons]
    unfold countNL at ih ⊢
    rw [List.count_cons, List.count_cons, ih]
    by_cases hb : b = 10
    · subst hb
      norm_num
      rw [show toLower 10 = 10 from rfl]
    · have hb2 : toLower b ≠ 10 := fun hc => hb (toLower_eq_ten.mp hc)
      simp [hb, hb2]

theorem tailLen_map_toLower (l : List Nat) : tailLen (l.map toLower) = tailLen l := by
  unfold tailLen
  rw [← List.map_reverse]
  generalize l.reverse = m
  induction m with
  | nil => rfl
  | cons b r ih =>
    simp only [List.map_cons, List.takeWhile_cons]
    by_cases hb : b = 10
    · subst hb
      rw [show toLower 10 = 10 from rfl]
      simp
    · have hb2 : toLower b ≠ 10 := fun hc => hb (toLower_eq_ten.mp hc)
      rw [if_pos (by simpa using hb2), if_pos (by simpa using hb)]
      simpa using ih

/-! ### The session registry (models.rs lines 514-596)

A single global slot holds at most one open session.  The slot state is
explicit here; the wrappers mirror `get_total_lines`, `get_file_size`,
`read_lines`, `mmap_search` and `close_file`. -/

/-- An open session: the file bytes plus the values computed at open time. -/
structure Session where
  content : List Nat
  total : Nat
  index : List Nat

def getTotalLines (slot : Option Session) : Except String Nat :=
  match slot with
  | none => Except.error "No file is currently opened"
  | some s => Except.ok s.total

def getFileSize (slot : Option Session) : Except String Nat :=
  match slot with
  | none => Except.ok 0
  | some s => Except.ok s.content.length

def readLinesOp (slot : Option Session) (start cnt : Nat) (cache : Option (Nat × Nat))
    (mmapOk : Bool) : Except String (List Nat) :=
  match slot with
  | none => Except.error "No file is currently opened"
  | some s => Except.ok (readLinesModel s.content s.index start cnt cache mmapOk)

def mmapSearchOp (slot : Option Session) (needle : List Nat) (ignoreCase : Bool)
    (mapOk : Bool) : Except String (Option SearchRes) :=
  match slot with
  | none => Except.error "No file is currently opened"
  | some s => mmapSearchRun mapOk s.content needle ignoreCase

def closeFile (slot : Option Session) : Except String (Option Session) :=
  match slot with
  | none => Except.error "No file is currently opened"
  | some _ => Except.ok none

/-! ### Claim C9 -/

/-- C9: with no file open, `get_total_lines`, `read_lines`, `mmap_search` and
`close` all fail with the "no file open" condition, while `get_file_size`
succeeds returning 0. -/
theorem C9_empty_slot_behaviour :
    getTotalLines none = Except.error "No file is currently opened" ∧
    (∀ start cnt cache mmapOk,
      readLinesOp none start cnt cache mmapOk = Except.error "No file is currently opened") ∧
    (∀ needle ignoreCase mapOk,
      mmapSearchOp none needle ignoreCase mapOk = Except.error "No file is currently opened") ∧
    closeFile none = Except.error "No file is currently opened" ∧
    getFileSize none = Except.ok 0 := by
  refine ⟨rfl, fun _ _ _ _ => rfl, fun _ _ _ => rfl, rfl, rfl⟩

end LargeFile

namespace LargeFile

/-! ### Claims C2, C3, C6, C7, C8, C4 -/

/-- C2: for every file (any valid sequence of reads), the `total_lines`
computed by `open` equals the number of newline-terminated-or-final segments:
each newline ends one counted line, a final unterminated segment counts as
one line, and an empty file has 0 lines. -/
theorem C2_total_lines {content : List Nat} {chunks : List (List Nat)}
    (hv : ValidChunks content chunks) :
    (openScan chunks).total = totalLines content ∧
    totalLines content =
      countNL content + (if content = [] ∨ content.getLast? = some 10 then 0 else 1) := by
  refine ⟨(openScan_general hv).1, ?_⟩
  rw [totalLines_formula]
  by_cases hz : tailLen content = 0
  · rw [if_pos hz, if_pos ((tailLen_eq_zero_iff content).mp hz)]
  · rw [if_neg hz, if_neg (fun hc => hz ((tailLen_eq_zero_iff content).mpr hc))]

/-- Witness for C2 at the file "a\nb" read in one chunk. -/
theorem C2_total_lines_witness :
    (openScan [[97, 10, 98]]).total = totalLines [97, 10, 98] ∧
    totalLines [97, 10, 98] =
      countNL [97, 10, 98] +
        (if ([97, 10, 98] : List Nat) = [] ∨ ([97, 10, 98] : List Nat).getLast? = some 10
          then 0 else 1) :=
  C2_total_lines (by constructor <;> decide)

/-- C3: for a non-empty needle occurring N times (non-overlapping, left to
right, resuming past each occurrence), `mmap_search` counts all N, returns
the records of the first `min(N, 1000)` occurrences in file order, and the
first record comes from the first occurrence (even when N exceeds the cap,
counting continues). -/
theorem C3_search_count_and_matches (content needle : List Nat) (ic : Bool)
    (hnd : needle ≠ []) :
    ∃ r, mmapSearch content needle ic = some r ∧
      r.count = (occs (hayOf content ic) (ndOf needle ic)).length ∧
      r.matchesPos = ((occs (hayOf content ic) (ndOf needle ic)).map
        (recordOf content (hayOf content ic) (ndOf needle ic))).take 1000 ∧
      r.matchesPos.length = min r.count 1000 ∧
      r.first = ((occs (hayOf content ic) (ndOf needle ic)).head?).map
        (recordOf content (hayOf content ic) (ndOf needle ic)) ∧
      List.Pairwise (· < ·) (occs (hayOf content ic) (ndOf needle ic)) ∧
      ∀ p ∈ occs (hayOf content ic) (ndOf needle ic),
        ((hayOf content ic).drop p).take (ndOf needle ic).length = ndOf needle ic := by
  refine ⟨specRes content needle ic, mmapSearch_spec content needle ic hnd,
    rfl, rfl, ?_, rfl, ?_, ?_⟩
  · show (((occs (hayOf content ic) (ndOf needle ic)).map
      (recordOf content (hayOf content ic) (ndOf needle ic))).take 1000).length = _
    rw [List.length_take, List.length_map]
    exact Nat.min_comm _ _
  · exact occsGo_pairwise _ _ (ndOf_ne_nil hnd ic) _ _
  · intro p hp
    exact occsGo_matchAt _ _ _ _ _ hp

/-- Witness for C3: searching "a" in "ab\na". -/
theorem C3_search_count_and_matches_witness :
    ∃ r, mmapSearch [97, 98, 10, 97] [97] false = some r ∧
      r.count = (occs (hayOf [97, 98, 10, 97] false) (ndOf [97] false)).length ∧
      r.matchesPos = ((occs (hayOf [97, 98, 10, 97] false) (ndOf [97] false)).map
        (recordOf [97, 98, 10, 97] (hayOf [97, 98, 10, 97] false) (ndOf [97] false))).take 1000 ∧
      r.matchesPos.length = min r.count 1000 ∧
      r.first = ((occs (hayOf [97, 98, 10, 97] false) (ndOf [97] false)).head?).map
        (recordOf [97, 98, 10, 97] (hayOf [97, 98, 10, 97] false) (ndOf [97] false)) ∧
      List.Pairwise (· < ·) (occs (hayOf [97, 98, 10, 97] false) (ndOf [97] false)) ∧
      ∀ p ∈ occs (hayOf [97, 98, 10, 97] false) (ndOf [97] false),
        ((hayOf [97, 98, 10, 97] false).drop p).take (ndOf [97] false).length =
          ndOf [97] false :=
  C3_search_count_and_matches [97, 98, 10, 97] [97] false (by decide)

/-- C6: with a non-empty needle, the search loop terminates on every content
(the fuel `content.length + 1` always suffices); the empty needle is not
rejected by this layer, and on it the loop never finishes. -/
theorem C6_search_termination (content needle : List Nat) (ic : Bool) (hnd : needle ≠ []) :
    (mmapSearch content needle ic).isSome ∧
    (content ≠ [] → mmapSearch content [] ic = none) := by
  constructor
  · rw [mmapSearch_spec content needle ic hnd]
    rfl
  · intro hc
    unfold mmapSearch
    rw [if_neg (fun hz => hc (List.eq_nil_of_length_eq_zero hz))]
    have hmap : (if ic then ([] : List Nat).map toLower else []) = [] := by
      cases ic <;> rfl
    rw [hmap, searchGo_empty]

/-- Witness for C6 at content "a", needle "a". -/
theorem C6_search_termination_witness :
    (mmapSearch [97] [97] false).isSome ∧
    ([97] ≠ ([] : List Nat) → mmapSearch [97] [] false = none) :=
  C6_search_termination [97] [97] false (by decide)

end LargeFile

namespace LargeFile

/-- C7: case-insensitive search lowercases the whole mapped file (reporting
that allocation as `extra_alloc_bytes`, equal to the file size and positive
for non-empty content) and matches occurrences of the lowered needle in the
lowered haystack; case-sensitive search allocates nothing extra.  On the
concrete content "abc\nAbC" with needle "ABC": 2 matches case-insensitively,
0 case-sensitively. -/
theorem C7_case_insensitivity (content needle : List Nat) (hc : content ≠ [])
    (hnd : needle ≠ []) :
    (∃ r1, mmapSearch content needle true = some r1 ∧ r1.extra = content.length ∧
      0 < r1.extra ∧
      r1.count = (occs (content.map toLower) (needle.map toLower)).length) ∧
    (∃ r2, mmapSearch content needle false = some r2 ∧ r2.extra = 0) ∧
    (mmapSearch [97, 98, 99, 10, 65, 98, 67] [65, 66, 67] true).map SearchRes.count =
      some 2 ∧
    (mmapSearch [97, 98, 99, 10, 65, 98, 67] [65, 66, 67] true).map SearchRes.extra =
      some 7 ∧
    (mmapSearch [97, 98, 99, 10, 65, 98, 67] [65, 66, 67] false).map SearchRes.count =
      some 0 ∧
    (mmapSearch [97, 98, 99, 10, 65, 98, 67] [65, 66, 67] false).map SearchRes.extra =
      some 0 := by
  refine ⟨?_, ?_, by decide, by decide, by decide, by decide⟩
  · refine ⟨specRes content needle true, mmapSearch_spec content needle true hnd, rfl, ?_, rfl⟩
    have hlen : content.length ≠ 0 := fun hz => hc (List.eq_nil_of_length_eq_zero hz)
    show 0 < (specRes content needle true).extra
    unfold specRes
    simp
    omega
  · exact ⟨specRes content needle false, mmapSearch_spec content needle false hnd, rfl⟩

/-- Witness for C7 at content "a", needle "a". -/
theorem C7_case_insensitivity_witness :
    (∃ r1, mmapSearch [97] [97] true = some r1 ∧ r1.extra = [97].length ∧
      0 < r1.extra ∧
      r1.count = (occs ([97].map toLower) ([97].map toLower)).length) ∧
    (∃ r2, mmapSearch [97] [97] false = some r2 ∧ r2.extra = 0) ∧
    (mmapSearch [97, 98, 99, 10, 65, 98, 67] [65, 66, 67] true).map SearchRes.count =
      some 2 ∧
    (mmapSearch [97, 98, 99, 10, 65, 98, 67] [65, 66, 67] true).map SearchRes.extra =
      some 7 ∧
    (mmapSearch [97, 98, 99, 10, 65, 98, 67] [65, 66, 67] false).map SearchRes.count =
      some 0 ∧
    (mmapSearch [97, 98, 99, 10, 65, 98, 67] [65, 66, 67] false).map SearchRes.extra =
      some 0 :=
  C7_case_insensitivity [97] [97] (by decide) (by decide)

/-- C8 fails as stated: on content `[0xFF, 0x61, 0x58]` with needle "X", the
bytes before the match are not valid UTF-8 and the reported column is 0, not
a character count of that region (a character-level measure of those two
bytes gives 2). -/
theorem C8_counterexample :
    (mmapSearch [255, 97, 88] [88] false).map SearchRes.first = some (some (0, 0, 1)) ∧
    (utf8Chars? (fromUtf8Lossy [255, 97])).getD 0 = 2 ∧
    (0 : Nat) ≠ 2 := by
  constructor
  · rfl
  · constructor
    · rfl
    · decide

/-- C8 amended: each match record reports the line as the 0-based newline
count before the match position in the original bytes; the column is the
character count of the original bytes from the preceding newline to the match
when that region is valid UTF-8 and 0 otherwise; the length is the character
count of the (possibly lowercased) needle when it is valid UTF-8 and its byte
length otherwise. -/
theorem C8_match_record_fields (content needle : List Nat) (ic : Bool)
    (hnd : needle ≠ []) :
    ∃ r, mmapSearch content needle ic = some r ∧
      r.matchesPos = ((occs (hayOf content ic) (ndOf needle ic)).map
        (recordOf content (hayOf content ic) (ndOf needle ic))).take 1000 ∧
      ∀ p : Nat, recordOf content (hayOf content ic) (ndOf needle ic) p =
        (countNL (content.take p),
         (utf8Chars? ((content.drop (lineStartOf content p)).take
           (p - lineStartOf content p))).getD 0,
         (utf8Chars? (ndOf needle ic)).getD (ndOf needle ic).length) := by
  refine ⟨specRes content needle ic, mmapSearch_spec content needle ic hnd, rfl, ?_⟩
  intro p
  unfold recordOf
  have h1 : countNL ((hayOf content ic).take p) = countNL (content.take p) := by
    unfold hayOf
    cases ic
    · rfl
    · rw [if_pos rfl, ← List.map_take, countNL_map_toLower]
  have h2 : lineStartOf (hayOf content ic) p = lineStartOf content p := by
    unfold lineStartOf hayOf
    cases ic
    · rfl
    · rw [if_pos rfl, ← List.map_take, tailLen_map_toLower]
  rw [h1, h2]

/-- Witness for the amended C8 at content "Xa", needle "X". -/
theorem C8_match_record_fields_witness :
    ∃ r, mmapSearch [88, 97] [88] false = some r ∧
      r.matchesPos = ((occs (hayOf [88, 97] false) (ndOf [88] false)).map
        (recordOf [88, 97] (hayOf [88, 97] false) (ndOf [88] false))).take 1000 ∧
      ∀ p : Nat, recordOf [88, 97] (hayOf [88, 97] false) (ndOf [88] false) p =
        (countNL (List.take p [88, 97]),
         (utf8Chars? ((List.drop (lineStartOf [88, 97] p) [88, 97]).take
           (p - lineStartOf [88, 97] p))).getD 0,
         (utf8Chars? (ndOf [88] false)).getD (ndOf [88] false).length) :=
  C8_match_record_fields [88, 97] [88] false (by decide)

end LargeFile

namespace LargeFile

/-! ### Claim C4 -/

/-- C4 fails as stated: a mapping failure during `mmap_search` on a non-empty
file does not degrade to any fallback; the `?` operator surfaces the error to
the caller directly. -/
theorem C4_counterexample :
    mmapSearchRun false [97] [97] false = Except.error "mmap failed" ∧
    ([97] : List Nat) ≠ [] := by
  constructor
  · rfl
  · decide

/-- C4 amended: a mapping failure during `read_lines` degrades to the
sequential fallback (no error in the pure model); a mapping failure during
`mmap_search` is surfaced as an error for non-empty files (the empty file
returns its zero result before any mapping is attempted). -/
theorem C4_mapping_failure (content index : List Nat) (start cnt : Nat)
    (needle : List Nat) (ic : Bool) (hc : content ≠ []) :
    readLinesModel content index start cnt none false =
      seqFallback content (baseAnchor index start).1 (baseAnchor index start).2 start cnt ∧
    mmapSearchRun false content needle ic = Except.error "mmap failed" ∧
    (∀ (mapOk : Bool) (needle2 : List Nat) (ic2 : Bool),
      mmapSearchRun mapOk [] needle2 ic2 = Except.ok (some ⟨0, [], 0, none, []⟩)) := by
  refine ⟨?_, ?_, ?_⟩
  · unfold readLinesModel
    dsimp only
    by_cases h1 : 0 < mapLenOf cnt (baseAnchor index start).1
    · rw [if_pos h1]
      by_cases h2 : content.length ≤ alignedOf (baseAnchor index start).1
      · rw [if_pos h2]
      · rw [if_neg h2, if_neg (by simp)]
    · rw [if_neg h1]
  · unfold mmapSearchRun
    rw [if_neg (fun hz => hc (List.eq_nil_of_length_eq_zero hz)), if_neg (by simp)]
  · intro mapOk needle2 ic2
    unfold mmapSearchRun
    rw [if_pos (show ([] : List Nat).length = 0 from rfl)]

/-- Witness for the amended C4 at the file "a". -/
theorem C4_mapping_failure_witness :
    readLinesModel [97] [] 0 1 none false =
      seqFallback [97] (baseAnchor [] 0).1 (baseAnchor [] 0).2 0 1 ∧
    mmapSearchRun false [97] [98] false = Except.error "mmap failed" ∧
    (∀ (mapOk : Bool) (needle2 : List Nat) (ic2 : Bool),
      mmapSearchRun mapOk [] needle2 ic2 = Except.ok (some ⟨0, [], 0, none, []⟩)) :=
  C4_mapping_failure [97] [] 0 1 [98] false (by decide)

end LargeFile

namespace LargeFile

/-! ### Support for the read_lines claims -/

theorem lineOffset_zero (l : List Nat) : lineOffset l 0 = 0 := by
  unfold lineOffset dropLines
  omega

theorem splitKeep_eq_nil_iff {l : List Nat} : splitKeep l = [] ↔ l = [] := by
  constructor
  · intro h
    by_cases hnil : l = []
    · exact hnil
    · rw [splitKeep_of_ne_nil hnil] at h
      simp at h
  · intro h
    subst h
    rfl

theorem dropLines_ne_nil {l : List Nat} {j : Nat} (h : j < totalLines l) :
    dropLines l j ≠ [] := by
  intro hz
  have hsk := splitKeep_dropLines l j
  rw [hz, splitKeep_nil] at hsk
  have : ((splitKeep l).drop j).length = 0 := by rw [← hsk]; rfl
  unfold totalLines at h
  simp at this
  omega

theorem dropLines_succ_alt (l : List Nat) : ∀ j : Nat,
    dropLines l (j + 1) = (readUntil (dropLines l j)).2 := by
  intro j
  induction j generalizing l with
  | zero => rfl
  | succ j ih =>
    show dropLines (readUntil l).2 (j + 1) = _
    rw [ih (readUntil l).2]
    rfl

theorem seqSkip_dropLines (content : List Nat) : ∀ (k j : Nat),
    j + k ≤ totalLines content →
    seqSkip (dropLines content j) k = dropLines content (j + k) := by
  intro k
  induction k with
  | zero =>
    intro j _
    rfl
  | succ k ih =>
    intro j hk
    have hj : j < totalLines content := by omega
    have hne := dropLines_ne_nil hj
    show (if (readUntil (dropLines content j)).1 = [] then dropLines content j
      else seqSkip (readUntil (dropLines content j)).2 k) = _
    rw [if_neg (readUntil_fst_ne_nil hne), ← dropLines_succ_alt]
    have := ih (j + 1) (by omega)
    rw [this]
    congr 1
    omega

theorem seqSkip_all (r : List Nat) : ∀ k : Nat, totalLines r ≤ k → seqSkip r k = [] := by
  intro k
  induction k generalizing r with
  | zero =>
    intro hk
    have : splitKeep r = [] := by
      have : (splitKeep r).length = 0 := by
        unfold totalLines at hk
        omega
      exact List.eq_nil_of_length_eq_zero this
    have := splitKeep_eq_nil_iff.mp this
    rw [this]
    rfl
  | succ k ih =>
    intro hk
    by_cases hnil : r = []
    · subst hnil
      rfl
    · show (if (readUntil r).1 = [] then r else seqSkip (readUntil r).2 k) = []
      rw [if_neg (readUntil_fst_ne_nil hnil)]
      refine ih _ ?_
      have hsk := splitKeep_of_ne_nil hnil
      have : totalLines r = totalLines (readUntil r).2 + 1 := by
        unfold totalLines
        rw [hsk]
        simp
      omega

theorem seqEmit_nil (cnt : Nat) (acc : List Nat) : seqEmit [] cnt acc = acc := by
  cases cnt with
  | zero => rfl
  | succ n =>
    show (if (readUntil ([] : List Nat)).1 = [] then acc else _) = acc
    rw [if_pos (show (readUntil ([] : List Nat)).1 = [] from rfl)]

theorem mem_of_mem_splitKeep {l seg : List Nat} (hseg : seg ∈ splitKeep l) {b : Nat}
    (hb : b ∈ seg) : b ∈ l := by
  rw [← splitKeep_join l]
  exact List.mem_join.mpr ⟨seg, hseg, hb⟩

/-- Under `ShortLines`, every oracle segment, terminator included, fits the
ceiling. -/
theorem splitKeep_short : ∀ (n : Nat) (content : List Nat), content.length ≤ n →
    ShortLines content → ∀ seg ∈ splitKeep content, seg.length ≤ MAX_LINE_BYTES := by
  intro n
  induction n with
  | zero =>
    intro content hlen _ seg hseg
    have : content = [] := by
      cases content with
      | nil => rfl
      | cons b r => simp at hlen
    subst this
    rw [splitKeep_nil] at hseg
    simp at hseg
  | succ n ih =>
    intro content hlen hs seg hseg
    by_cases hnil : content = []
    · subst hnil
      rw [splitKeep_nil] at hseg
      simp at hseg
    · rw [splitKeep_of_ne_nil hnil] at hseg
      rcases List.mem_cons.mp hseg with h1 | h2
      · subst h1
        rcases readUntil_cases content with ⟨h0, heq⟩ | ⟨x, y, hxy, hx0, heq⟩
        · rw [heq]
          have hsh := hs content [] (by simp)
          rw [tailLen_of_no10 h0] at hsh
          show content.length ≤ MAX_LINE_BYTES
          omega
        · rw [heq]
          have hsh := hs x (10 :: y) hxy
          rw [tailLen_of_no10 hx0] at hsh
          simp
          omega
      · have hjoin := readUntil_join content
        have hsuf : ShortLines (readUntil content).2 := by
          refine shortLines_suffix (a := (readUntil content).1) ?_
          rw [hjoin]
          exact hs
        have hlt := readUntil_snd_length_lt hnil
        exact ih (readUntil content).2 (by omega) hsuf seg h2

theorem idxSpec_getD (content : List Nat) (t k : Nat) (hk : k < t / INDEX_INTERVAL) :
    (idxSpec content t).getD k 0 = lineOffset content ((k + 1) * INDEX_INTERVAL) := by
  unfold idxSpec
  rw [List.getD_eq_getElem?_getD, List.getElem?_map, List.getElem?_range hk]
  rfl

/-- On the exact index, the anchor resolves to the byte offset of the nearest
indexed line at or before `start`. -/
theorem baseAnchor_exact (content : List Nat) (start : Nat)
    (h : start < totalLines content) :
    baseAnchor (idxSpec content (totalLines content)) start =
      (lineOffset content (start / INDEX_INTERVAL * INDEX_INTERVAL),
       start / INDEX_INTERVAL * INDEX_INTERVAL) := by
  unfold baseAnchor
  by_cases hp : start / INDEX_INTERVAL = 0
  · rw [if_pos hp, hp]
    simp [lineOffset_zero]
  · rw [if_neg hp]
    have hlen : (idxSpec content (totalLines content)).length
        = totalLines content / INDEX_INTERVAL := by
      unfold idxSpec
      simp
    have hcond : start / INDEX_INTERVAL - 1 < totalLines content / INDEX_INTERVAL := by
      unfold INDEX_INTERVAL at hp ⊢
      omega
    rw [if_pos (show start / INDEX_INTERVAL - 1 < (idxSpec content (totalLines content)).length by
      rw [hlen]; exact hcond)]
    rw [idxSpec_getD content _ _ hcond]
    have harg : start / INDEX_INTERVAL - 1 + 1 = start / INDEX_INTERVAL := by
      unfold INDEX_INTERVAL at hp ⊢
      omega
    rw [harg]

theorem mapLenOf_pos (cnt baseOff : Nat) : 0 < mapLenOf cnt baseOff := by
  unfold mapLenOf alignedOf MMAP_CAP INDEX_INTERVAL EST_LINE_LEN PAGE_SIZE
  omega

theorem stripNL_append_nl (x : List Nat) : stripNL (x ++ [10]) = x := by
  simp [stripNL]

theorem getLast?_ne_10_of_no10 {l : List Nat} (h : countNL l = 0) :
    l.getLast? ≠ some 10 := by
  intro hl
  have hm : (10 : Nat) ∈ l := List.mem_of_mem_getLast? hl
  unfold countNL at h
  rw [List.count_eq_zero] at h
  exact h hm

theorem stripNL_of_no10 {l : List Nat} (h : countNL l = 0) : stripNL l = l := by
  unfold stripNL
  rw [if_neg (getLast?_ne_10_of_no10 h)]

/-- Without carriage returns, Rust line stripping agrees with the oracle. -/
theorem rustStrip_eq_stripNL {seg : List Nat} (h : (13 : Nat) ∉ seg) :
    rustStrip seg = stripNL seg := by
  unfold rustStrip stripNL
  by_cases h10 : seg.getLast? = some 10
  · rw [if_pos h10, if_pos h10, if_neg ?_]
    intro h13
    have hm : (13 : Nat) ∈ seg.dropLast := List.mem_of_mem_getLast? h13
    exact h ((List.dropLast_sublist seg).mem hm)
  · rw [if_neg h10, if_neg h10]

theorem splitKeep_drop_cons (content : List Nat) (j : Nat) (hj : j < totalLines content) :
    (splitKeep content).drop j =
      (readUntil (dropLines content j)).1 :: (splitKeep content).drop (j + 1) := by
  have hne := dropLines_ne_nil hj
  rw [← splitKeep_dropLines content j, ← splitKeep_dropLines content (j + 1),
    dropLines_succ_alt, splitKeep_of_ne_nil hne]

theorem splitLines_length (content : List Nat) :
    (splitLines content).length = totalLines content := by
  unfold splitLines totalLines
  simp

theorem emitLines_spec : ∀ (L : List (List Nat)) (cnt : Nat),
    (∀ l ∈ L, l.length ≤ MAX_LINE_BYTES) →
    emitLines L cnt = ((L.take cnt).map (fun l => l ++ [10])).join := by
  intro L
  induction L with
  | nil =>
    intro cnt _
    cases cnt <;> rfl
  | cons l rest ih =>
    intro cnt hb
    cases cnt with
    | zero => rfl
    | succ n =>
      show (if l.length > MAX_LINE_BYTES then _ else l ++ 10 :: emitLines rest n) = _
      rw [if_neg (by have := hb l (by simp); omega)]
      rw [ih n (fun x hx => hb x (by simp [hx]))]
      simp

/-- The sequential emit loop produces the next `cnt` oracle lines, each
re-terminated with a newline, appended to the accumulator. -/
theorem seqEmit_spec (content : List Nat) (hshort : ShortLines content)
    (hascii : ∀ b ∈ content, b < 128) :
    ∀ (cnt j : Nat) (acc : List Nat), j ≤ totalLines content →
    seqEmit (dropLines content j) cnt acc =
      acc ++ ((((splitLines content).drop j).take cnt).map (fun l => l ++ [10])).join := by
  intro cnt
  induction cnt with
  | zero =>
    intro j acc _
    simp [seqEmit]
  | succ n ih =>
    intro j acc hj
    by_cases hjt : j = totalLines content
    · subst hjt
      rw [dropLines_totalLines, seqEmit_nil]
      have hnil : (splitLines content).drop (totalLines content) = [] :=
        List.drop_eq_nil_of_le (by rw [splitLines_length])
      rw [hnil]
      simp
    · have hj' : j < totalLines content := lt_of_le_of_ne hj hjt
      have hne := dropLines_ne_nil hj'
      have hsegne := readUntil_fst_ne_nil hne
      have hmem : (readUntil (dropLines content j)).1 ∈ splitKeep content := by
        have := splitKeep_drop_cons content j hj'
        have hmem' : (readUntil (dropLines content j)).1 ∈ (splitKeep content).drop j := by
          rw [this]
          exact List.mem_cons_self _ _
        exact List.mem_of_mem_drop hmem'
      have hlenle := splitKeep_short content.length content le_rfl hshort _ hmem
      have hlossy : fromUtf8Lossy (readUntil (dropLines content j)).1
          = (readUntil (dropLines content j)).1 :=
        fromUtf8Lossy_ascii _ (fun b hb => hascii b (mem_of_mem_splitKeep hmem hb))
      have hdropc : (splitLines content).drop j
          = stripNL (readUntil (dropLines content j)).1 :: (splitLines content).drop (j + 1) := by
        unfold splitLines
        rw [← List.map_drop, ← List.map_drop, splitKeep_drop_cons content j hj']
        rfl
      have hnext : (readUntil (dropLines content j)).2 = dropLines content (j + 1) :=
        (dropLines_succ_alt content j).symm
      show (if (readUntil (dropLines content j)).1 = [] then acc
        else if (readUntil (dropLines content j)).1.length > MAX_LINE_BYTES then
          acc ++ fromUtf8Lossy ((readUntil (dropLines content j)).1.take MAX_LINE_BYTES) ++ [10]
        else seqEmit (readUntil (dropLines content j)).2 n
          (if (acc ++ fromUtf8Lossy (readUntil (dropLines content j)).1).getLast? = some 10 then
            acc ++ fromUtf8Lossy (readUntil (dropLines content j)).1
          else acc ++ fromUtf8Lossy (readUntil (dropLines content j)).1 ++ [10])) = _
      rw [if_neg hsegne, if_neg (by omega), hlossy, hnext]
      have hacc : (if (acc ++ (readUntil (dropLines content j)).1).getLast? = some 10 then
            acc ++ (readUntil (dropLines content j)).1
          else acc ++ (readUntil (dropLines content j)).1 ++ [10])
          = acc ++ (stripNL (readUntil (dropLines content j)).1 ++ [10]) := by
        rcases readUntil_cases (dropLines content j) with ⟨h0, heq⟩ | ⟨x, y, hxy, hx0, heq⟩
        · rw [heq]
          dsimp only
          have h0' : countNL (dropLines content j) = 0 := h0
          have hcondf : (acc ++ dropLines content j).getLast? ≠ some 10 := by
            rw [List.getLast?_append_of_ne_nil acc hne]
            exact getLast?_ne_10_of_no10 h0'
          rw [if_neg hcondf, stripNL_of_no10 h0', List.append_assoc]
        · rw [heq]
          dsimp only
          have hcondt : (acc ++ (x ++ [10])).getLast? = some 10 := by
            rw [List.getLast?_append_of_ne_nil acc (by simp)]
            rw [List.getLast?_append_of_ne_nil x (by simp)]
            rfl
          rw [if_pos hcondt, stripNL_append_nl]
      rw [hacc, ih (j + 1) _ (by omega), hdropc]
      simp

/-- The sequential fallback started at the exact anchor for `baseLine` returns
the oracle lines `start, …, start + cnt - 1`, newline-terminated. -/
theorem seqFallback_spec (content : List Nat) (hshort : ShortLines content)
    (hascii : ∀ b ∈ content, b < 128) (start cnt : Nat) (baseLine : Nat)
    (hbl : baseLine ≤ start) (hst : start ≤ totalLines content) :
    seqFallback content (lineOffset content baseLine) baseLine start cnt =
      ((((splitLines content).drop start).take cnt).map (fun l => l ++ [10])).join := by
  unfold seqFallback
  rw [drop_lineOffset, seqSkip_dropLines content (start - baseLine) baseLine (by omega)]
  have harg : baseLine + (start - baseLine) = start := by omega
  rw [harg, seqEmit_spec content hshort hascii cnt start [] hst]
  simp

theorem stripNL_length_le (l : List Nat) : (stripNL l).length ≤ l.length := by
  unfold stripNL
  split
  · simp
  · exact le_rfl

theorem splitLines_short {content : List Nat} (hshort : ShortLines content) :
    ∀ l ∈ splitLines content, l.length ≤ MAX_LINE_BYTES := by
  intro l hl
  unfold splitLines at hl
  rcases List.mem_map.mp hl with ⟨seg, hseg, hls⟩
  subst hls
  have h1 := splitKeep_short content.length content le_rfl hshort seg hseg
  have h2 := stripNL_length_le seg
  omega

/-- Bytes of a dropped-lines suffix come from the original list. -/
theorem mem_of_mem_dropLines {content : List Nat} {n b : Nat}
    (hb : b ∈ dropLines content n) : b ∈ content := by
  have := dropLines_is_suffix content n
  rw [← this]
  exact List.mem_append_right _ hb

/-- Rust `str::lines` of a dropped-lines suffix of carriage-return-free content
is the oracle line list from that point on. -/
theorem rustLines_dropLines (content : List Nat) (hnocr : (13 : Nat) ∉ content)
    (baseLine : Nat) :
    rustLines (dropLines content baseLine) = (splitLines content).drop baseLine := by
  unfold rustLines splitLines
  rw [splitKeep_dropLines, ← List.map_drop]
  refine List.map_congr_left ?_
  intro seg hseg
  refine rustStrip_eq_stripNL ?_
  intro h13
  exact hnocr (mem_of_mem_splitKeep (List.mem_of_mem_drop hseg) h13)

/-- The mmap emit step on the exact suffix slice returns the requested lines. -/
theorem mmapEmit_eof (content : List Nat) (hshort : ShortLines content)
    (hascii : ∀ b ∈ content, b < 128) (hnocr : (13 : Nat) ∉ content)
    (start cnt baseLine : Nat) (hbl : baseLine ≤ start) (hst : start < totalLines content) :
    mmapEmit (dropLines content baseLine) (start - baseLine) cnt =
      some (((((splitLines content).drop start).take cnt).map (fun l => l ++ [10])).join) := by
  unfold mmapEmit
  have hlossy : fromUtf8Lossy (dropLines content baseLine) = dropLines content baseLine :=
    fromUtf8Lossy_ascii _ (fun b hb => hascii b (mem_of_mem_dropLines hb))
  rw [hlossy, rustLines_dropLines content hnocr baseLine]
  have hlens : ((splitLines content).drop baseLine).length = totalLines content - baseLine := by
    rw [List.length_drop, splitLines_length]
  rw [if_neg (by rw [hlens]; omega)]
  rw [List.drop_drop]
  have harg : baseLine + (start - baseLine) = start := by omega
  rw [harg]
  rw [emitLines_spec _ cnt (fun l hl => splitLines_short hshort l (List.mem_of_mem_drop hl))]

/-- C1 (corrected claim, counterexample): on the file `a\r\n b\n` the
memory-mapped window path of `read_lines(0, 1)` returns the text `a\n`,
whose line content `a` differs from line 0 of the naive sequential oracle,
which is `a\r`: `str::lines` on the window strips the carriage return, and no
overlong-line truncation is involved. -/
theorem C1_counterexample :
    (openScan [[97, 13, 10, 98, 10]]).index = [] ∧
    totalLines [97, 13, 10, 98, 10] = 2 ∧
    readLinesModel [97, 13, 10, 98, 10] [] 0 1 none true = [97, 10] ∧
    splitLines [97, 13, 10, 98, 10] = [[97, 13], [98]] ∧
    ([97, 10] : List Nat) ≠ [97, 13] ++ [10] := by
  exact ⟨rfl, rfl, rfl, rfl, by decide⟩

/-- C1 (amended): for carriage-return-free ASCII content whose lines all stay
under the 6 MiB ceiling, with the index produced by `open`, and a window that
reaches the end of the file, `read_lines(start, count)` with
`start < total_lines` returns exactly the oracle lines
`start … start+count-1`, each newline-terminated — on the mapped path and on
the sequential fallback alike — and their number is
`min(count, total_lines - start)`. -/
theorem C1_read_lines_oracle (content : List Nat) (chunks : List (List Nat))
    (start cnt : Nat) (mmapOk : Bool)
    (hv : ValidChunks content chunks) (hshort : ShortLines content)
    (hascii : ∀ b ∈ content, b < 128) (hnocr : (13 : Nat) ∉ content)
    (hstart : start < totalLines content)
    (heof : content.length ≤
      alignedOf (baseAnchor (openScan chunks).index start).1 +
      mapLenOf cnt (baseAnchor (openScan chunks).index start).1) :
    readLinesModel content (openScan chunks).index start cnt none mmapOk =
      ((((splitLines content).drop start).take cnt).map (fun l => l ++ [10])).join ∧
    (((splitLines content).drop start).take cnt).length
      = min cnt (totalLines content - start) := by
  have hex := openScan_exact hv hshort
  constructor
  · rw [hex.2] at heof ⊢
    rw [baseAnchor_exact content start hstart] at heof
    dsimp only at heof
    have hbl : start / INDEX_INTERVAL * INDEX_INTERVAL ≤ start :=
      Nat.div_mul_le_self start INDEX_INTERVAL
    simp only [readLinesModel]
    rw [baseAnchor_exact content start hstart]
    dsimp only
    rw [if_pos (mapLenOf_pos cnt _)]
    by_cases hal : content.length ≤ alignedOf (lineOffset content
        (start / INDEX_INTERVAL * INDEX_INTERVAL))
    · rw [if_pos hal]
      exact seqFallback_spec content hshort hascii start cnt _ hbl (le_of_lt hstart)
    · rw [if_neg hal]
      cases mmapOk with
      | false =>
        rw [if_neg (by simp)]
        exact seqFallback_spec content hshort hascii start cnt _ hbl (le_of_lt hstart)
      | true =>
        rw [if_pos ⟨by
          have := mapLenOf_pos cnt (lineOffset content
            (start / INDEX_INTERVAL * INDEX_INTERVAL))
          omega, rfl⟩]
        have hmin : min (mapLenOf cnt (lineOffset content
              (start / INDEX_INTERVAL * INDEX_INTERVAL)))
            (content.length - alignedOf (lineOffset content
              (start / INDEX_INTERVAL * INDEX_INTERVAL)))
            = content.length - alignedOf (lineOffset content
              (start / INDEX_INTERVAL * INDEX_INTERVAL)) := by
          omega
        have hslice : cacheSlice content
            (alignedOf (lineOffset content (start / INDEX_INTERVAL * INDEX_INTERVAL)))
            (min (mapLenOf cnt (lineOffset content (start / INDEX_INTERVAL * INDEX_INTERVAL)))
              (content.length - alignedOf (lineOffset content
                (start / INDEX_INTERVAL * INDEX_INTERVAL))))
            (lineOffset content (start / INDEX_INTERVAL * INDEX_INTERVAL))
            = dropLines content (start / INDEX_INTERVAL * INDEX_INTERVAL) := by
          rw [hmin]
          unfold cacheSlice
          rw [List.take_of_length_le (by rw [List.length_drop])]
          rw [List.drop_drop]
          have hle : alignedOf (lineOffset content (start / INDEX_INTERVAL * INDEX_INTERVAL))
              ≤ lineOffset content (start / INDEX_INTERVAL * INDEX_INTERVAL) := by
            unfold alignedOf
            exact Nat.div_mul_le_self _ _
          have harg : alignedOf (lineOffset content (start / INDEX_INTERVAL * INDEX_INTERVAL))
              + (lineOffset content (start / INDEX_INTERVAL * INDEX_INTERVAL)
                - alignedOf (lineOffset content (start / INDEX_INTERVAL * INDEX_INTERVAL)))
              = lineOffset content (start / INDEX_INTERVAL * INDEX_INTERVAL) := by
            omega
          rw [harg, drop_lineOffset]
        rw [hslice, mmapEmit_eof content hshort hascii hnocr start cnt
          (start / INDEX_INTERVAL * INDEX_INTERVAL) hbl hstart]
  · rw [List.length_take, List.length_drop, splitLines_length]

theorem C1_read_lines_oracle_witness :
    readLinesModel [97, 10, 98, 10] (openScan [[97, 10, 98, 10]]).index 1 5 none true
      = [98, 10] := by
  have h := (C1_read_lines_oracle [97, 10, 98, 10] [[97, 10, 98, 10]] 1 5 true
    ⟨rfl, by decide⟩ (shortLines_of_small (by decide)) (by decide) (by decide)
    (by decide) (by decide)).1
  rw [h]
  decide

/-- C5 (amended): for every chunking of the content, the index built by `open`
has exactly `total_lines / 1000` entries and is non-decreasing; when in
addition every line of the content stays under the 6 MiB ceiling, entry `k` is
exactly the byte offset of line `(k+1) * 1000`. -/
theorem C5_sparse_index (content : List Nat) (chunks : List (List Nat))
    (hv : ValidChunks content chunks) :
    ((openScan chunks).index.length = totalLines content / INDEX_INTERVAL ∧
      (openScan chunks).index.Sorted (· ≤ ·)) ∧
    (ShortLines content →
      (openScan chunks).index = idxSpec content (totalLines content)) := by
  exact ⟨⟨(openScan_general hv).2.1, (openScan_general hv).2.2⟩,
    fun hs => (openScan_exact hv hs).2⟩

theorem C5_sparse_index_witness :
    (openScan [[97, 10]]).index = idxSpec [97, 10] (totalLines [97, 10]) :=
  (C5_sparse_index [97, 10] [[97, 10]] ⟨rfl, by decide⟩).2 (shortLines_of_small (by decide))

theorem countNL_take_le (l : List Nat) (k : Nat) : countNL (l.take k) ≤ countNL l := by
  conv_rhs => rw [← List.take_append_drop k l]
  rw [countNL_append]
  omega

theorem totalLines_take_le (l : List Nat) (k : Nat) :
    totalLines (l.take k) ≤ totalLines l := by
  rw [totalLines_formula, totalLines_formula]
  have hcnt : countNL l = countNL (l.take k) + countNL (l.drop k) := by
    conv_lhs => rw [← List.take_append_drop k l]
    rw [countNL_append]
  by_cases hd : countNL (l.drop k) = 0
  · have htail : tailLen l = tailLen (l.take k) + (l.drop k).length := by
      conv_lhs => rw [← List.take_append_drop k l]
      exact tailLen_append_no10 _ hd
    split <;> split <;> omega
  · split <;> split <;> omega

theorem rustLines_length (l : List Nat) : (rustLines l).length = totalLines l := by
  unfold rustLines totalLines
  simp

/-- Whatever the anchor lookup resolves to on a `idxSpec` index, it is the
exact byte offset of some line. -/
theorem baseAnchor_idxSpec (content : List Nat) (t start : Nat) :
    ∃ bl, baseAnchor (idxSpec content t) start = (lineOffset content bl, bl) := by
  unfold baseAnchor
  by_cases hp : start / INDEX_INTERVAL = 0
  · refine ⟨0, ?_⟩
    rw [if_pos hp, lineOffset_zero]
  · by_cases hr : start / INDEX_INTERVAL - 1 < (idxSpec content t).length
    · refine ⟨start / INDEX_INTERVAL * INDEX_INTERVAL, ?_⟩
      rw [if_neg hp, if_pos hr]
      have hlen : (idxSpec content t).length = t / INDEX_INTERVAL := by
        unfold idxSpec
        simp
      rw [hlen] at hr
      rw [idxSpec_getD content t _ hr]
      have harg : start / INDEX_INTERVAL - 1 + 1 = start / INDEX_INTERVAL := by
        unfold INDEX_INTERVAL at hp ⊢
        omega
      rw [harg]
    · refine ⟨0, ?_⟩
      rw [if_neg hp, if_neg hr, lineOffset_zero]

/-- A window slice that starts at the exact offset of line `bl` holds at most
the remaining lines, so skipping past the end yields nothing. -/
theorem mmapEmit_past (content : List Nat) (bl K skip cnt : Nat)
    (hskip : totalLines content - bl ≤ skip) :
    mmapEmit ((dropLines content bl).take K) skip cnt = none ∨
    mmapEmit ((dropLines content bl).take K) skip cnt = some [] := by
  unfold mmapEmit
  have hlen : (rustLines (fromUtf8Lossy ((dropLines content bl).take K))).length ≤ skip := by
    rw [rustLines_length, totalLines_fromUtf8Lossy]
    have h1 := totalLines_take_le (dropLines content bl) K
    have h2 := totalLines_dropLines content bl
    omega
  by_cases hlt : (rustLines (fromUtf8Lossy ((dropLines content bl).take K))).length < skip
  · left
    rw [if_pos hlt]
  · right
    rw [if_neg hlt]
    rw [List.drop_eq_nil_of_le hlen]
    cases cnt <;> rfl

theorem seqFallback_past (content : List Nat) (bl start cnt : Nat)
    (hstart : totalLines content ≤ start) :
    seqFallback content (lineOffset content bl) bl start cnt = [] := by
  unfold seqFallback
  rw [drop_lineOffset]
  rw [seqSkip_all _ _ (by rw [totalLines_dropLines]; omega), seqEmit_nil]

theorem cacheSlice_eq_take (content : List Nat) (ca cl baseOff : Nat)
    (hca : ca ≤ baseOff) (hcl : baseOff - ca ≤ cl) :
    cacheSlice content ca cl baseOff = (content.drop baseOff).take (cl - (baseOff - ca)) := by
  unfold cacheSlice
  conv_lhs => rw [show cl = (baseOff - ca) + (cl - (baseOff - ca)) from by omega]
  rw [← List.take_drop, List.drop_drop]
  have harg : ca + (baseOff - ca) = baseOff := by omega
  rw [harg]

theorem lineOffset_le_length (l : List Nat) (n : Nat) : lineOffset l n ≤ l.length := by
  unfold lineOffset
  omega

/-- The fresh-mapping tail of `read_lines` (and its fallback) returns nothing
once `start` is past the last line. -/
theorem readLines_fresh_past (content : List Nat) (bl start cnt : Nat) (mmapOk : Bool)
    (hstart : totalLines content ≤ start) :
    (if content.length ≤ alignedOf (lineOffset content bl) then
        seqFallback content (lineOffset content bl) bl start cnt
      else
        if 0 < min (mapLenOf cnt (lineOffset content bl))
            (content.length - alignedOf (lineOffset content bl)) ∧ mmapOk = true then
          match mmapEmit (cacheSlice content (alignedOf (lineOffset content bl))
              (min (mapLenOf cnt (lineOffset content bl))
                (content.length - alignedOf (lineOffset content bl)))
              (lineOffset content bl)) (start - bl) cnt with
          | some out => out
          | none => seqFallback content (lineOffset content bl) bl start cnt
        else seqFallback content (lineOffset content bl) bl start cnt) = [] := by
  have hfb := seqFallback_past content bl start cnt hstart
  have hskip : totalLines content - bl ≤ start - bl := by omega
  by_cases hal : content.length ≤ alignedOf (lineOffset content bl)
  · rw [if_pos hal]
    exact hfb
  · rw [if_neg hal]
    cases mmapOk with
    | false =>
      rw [if_neg (by simp)]
      exact hfb
    | true =>
      rw [if_pos ⟨by
        have := mapLenOf_pos cnt (lineOffset content bl)
        omega, rfl⟩]
      have hca : alignedOf (lineOffset content bl) ≤ lineOffset content bl := by
        unfold alignedOf
        exact Nat.div_mul_le_self _ _
      have hoffle := lineOffset_le_length content bl
      have hcl : lineOffset content bl - alignedOf (lineOffset content bl)
          ≤ min (mapLenOf cnt (lineOffset content bl))
            (content.length - alignedOf (lineOffset content bl)) := by
        have h1 : lineOffset content bl - alignedOf (lineOffset content bl)
            ≤ mapLenOf cnt (lineOffset content bl) := by
          unfold mapLenOf MMAP_CAP INDEX_INTERVAL EST_LINE_LEN alignedOf PAGE_SIZE
          omega
        omega
      rw [cacheSlice_eq_take content _ _ _ hca hcl, drop_lineOffset]
      rcases mmapEmit_past content bl _ (start - bl) cnt hskip with h | h
      · rw [h]
        exact hfb
      · rw [h]

/-- C10 (amended): with the index produced by `open` and content whose lines
stay under the 6 MiB ceiling, `read_lines(start, count)` with
`start ≥ total_lines` returns empty text on every path: any cached or fresh
window emits nothing and the sequential fallback skips to the end. -/
theorem C10_start_past_end (content : List Nat) (chunks : List (List Nat))
    (start cnt : Nat) (cache : Option (Nat × Nat)) (mmapOk : Bool)
    (hv : ValidChunks content chunks) (hshort : ShortLines content)
    (hstart : totalLines content ≤ start) :
    readLinesModel content (openScan chunks).index start cnt cache mmapOk = [] := by
  rw [(openScan_exact hv hshort).2]
  obtain ⟨bl, hanch⟩ := baseAnchor_idxSpec content (totalLines content) start
  have hskip : totalLines content - bl ≤ start - bl := by omega
  simp only [readLinesModel]
  rw [hanch]
  dsimp only
  rw [if_pos (mapLenOf_pos cnt _)]
  cases cache with
  | none =>
    dsimp only
    exact readLines_fresh_past content bl start cnt mmapOk hstart
  | some p =>
    obtain ⟨ca, cl⟩ := p
    dsimp only
    by_cases hhit : ca ≤ lineOffset content bl ∧
        lineOffset content bl + mapLenOf cnt (lineOffset content bl) ≤ ca + cl
    · rw [if_pos hhit]
      have hcl : lineOffset content bl - ca ≤ cl := by
        have := mapLenOf_pos cnt (lineOffset content bl)
        omega
      rw [cacheSlice_eq_take content ca cl _ hhit.1 hcl, drop_lineOffset]
      rcases mmapEmit_past content bl _ (start - bl) cnt hskip with h | h
      · rw [h]
        exact readLines_fresh_past content bl start cnt mmapOk hstart
      · rw [h]
    · rw [if_neg hhit]
      exact readLines_fresh_past content bl start cnt mmapOk hstart

theorem C10_start_past_end_witness :
    readLinesModel [97, 10] (openScan [[97, 10]]).index 5 3 none true = [] :=
  C10_start_past_end [97, 10] [[97, 10]] 5 3 none true ⟨rfl, by decide⟩
    (shortLines_of_small (by decide)) (by decide)

/-! ### A concrete file with a 6 MiB line: the index drifts -/

/-- 999 lines `a\n`, then a line of 6291457 `a`s (one byte over the 6 MiB
ceiling, terminator included), then a line `b\n`. -/
def longContent : List Nat :=
  (List.replicate 999 [97, 10]).join ++ (List.replicate 6291457 97 ++ 10 :: [98, 10])

/-- A 64 KiB-chunked read sequence for `longContent`. -/
def longChunks : List (List Nat) :=
  List.replicate 999 [97, 10] ++
    (List.replicate 96 (List.replicate 65536 97) ++ [[97, 10, 98, 10]])

theorem join_nil' : (([] : List (List Nat))).join = [] := rfl

theorem join_cons' (x : List Nat) (xs : List (List Nat)) : (x :: xs).join = x ++ xs.join := rfl

theorem join_append' (a b : List (List Nat)) : (a ++ b).join = a.join ++ b.join := by
  induction a with
  | nil => rfl
  | cons x xs ih =>
    rw [List.cons_append, join_cons', join_cons', ih, List.append_assoc]

theorem replicate_append_cons (n a : Nat) (t : List Nat) :
    List.replicate n a ++ a :: t = List.replicate (n + 1) a ++ t := by
  rw [List.replicate_succ']
  simp

theorem join_replicate_replicate (m k a : Nat) :
    (List.replicate m (List.replicate k a)).join = List.replicate (m * k) a := by
  induction m with
  | zero => simp
  | succ m ih =>
    rw [List.replicate_succ, join_cons', ih, ← List.replicate_add,
      Nat.succ_mul, Nat.add_comm]

theorem join_aa_succ (k : Nat) :
    (List.replicate (k + 1) [97, 10]).join
      = (List.replicate k [97, 10]).join ++ [97, 10] := by
  rw [List.replicate_succ', join_append', join_cons', join_nil', List.append_nil]

theorem aa_stats : ∀ k : Nat,
    countNL ((List.replicate k [97, 10]).join) = k ∧
    tailLen ((List.replicate k [97, 10]).join) = 0 ∧
    ((List.replicate k [97, 10]).join).length = 2 * k := by
  intro k
  induction k with
  | zero => exact ⟨rfl, rfl, rfl⟩
  | succ k ih =>
    rw [join_aa_succ]
    refine ⟨?_, ?_, ?_⟩
    · rw [countNL_append, ih.1, show countNL [97, 10] = 1 from rfl]
    · have hsplit : (List.replicate k [97, 10]).join ++ [97, 10]
          = ((List.replicate k [97, 10]).join ++ [97]) ++ 10 :: [] := by
        simp
      rw [hsplit, tailLen_mid10, tailLen_nil]
    · rw [List.length_append, ih.2.2, show ([97, 10] : List Nat).length = 2 from rfl]
      omega

theorem validChunks_long : ValidChunks longContent longChunks := by
  constructor
  · unfold longChunks longContent
    rw [join_append', join_append', join_cons', join_nil', List.append_nil,
      join_replicate_replicate]
    rw [show (96 * 65536 : Nat) = 6291456 from by norm_num]
    rw [show ([97, 10, 98, 10] : List Nat) = 97 :: (10 :: [98, 10]) from rfl]
    rw [replicate_append_cons]
  · intro c hc
    unfold longChunks at hc
    rcases List.mem_append.mp hc with h1 | h2
    · rw [List.eq_of_mem_replicate h1]
      exact ⟨by decide, by decide⟩
    · rcases List.mem_append.mp h2 with h3 | h4
      · rw [List.eq_of_mem_replicate h3]
        constructor
        · intro hz
          have hlen := congrArg List.length hz
          rw [List.length_replicate, List.length_nil] at hlen
          exact absurd hlen (by decide)
        · rw [List.length_replicate]
          unfold CHUNK_BYTES
          omega
      · rw [List.mem_singleton.mp h4]
        exact ⟨by decide, by decide⟩

theorem processChunk_aa (t p : Nat) (idx : List Nat)
    (hmod : (t + 1) % INDEX_INTERVAL ≠ 0) :
    processChunk ⟨t, p, idx, 0⟩ [97, 10] = ⟨t + 1, p + 2, idx, 0⟩ := by
  unfold processChunk
  show endChunk (scanByte (scanByte ((⟨t, p, idx, 0⟩ : ScanSt), 0) 97) 10) = _
  have h1 : scanByte ((⟨t, p, idx, 0⟩ : ScanSt), 0) 97 = (⟨t, p, idx, 0⟩, 1) := by
    unfold scanByte
    rw [if_neg (by decide)]
  rw [h1]
  have h2 : scanByte ((⟨t, p, idx, 0⟩ : ScanSt), 1) 10
      = (⟨t + 1, p + 2, pushIdx (t + 1) idx (p + 2), 0⟩, 0) := by
    unfold scanByte
    rw [if_pos rfl]
    dsimp only
    rw [advanceLen_eq (by decide)]
  rw [h2]
  have h3 : endChunk ((⟨t + 1, p + 2, pushIdx (t + 1) idx (p + 2), 0⟩ : ScanSt), 0)
      = ⟨t + 1, p + 2, pushIdx (t + 1) idx (p + 2), 0⟩ := by
    unfold endChunk
    rw [if_neg (by dsimp only; decide)]
    simp
  rw [h3]
  unfold pushIdx
  rw [if_neg hmod]

theorem scan_aa_run : ∀ (k t p : Nat) (idx : List Nat),
    (∀ i, t < i → i ≤ t + k → i % INDEX_INTERVAL ≠ 0) →
    List.foldl processChunk ⟨t, p, idx, 0⟩ (List.replicate k [97, 10])
      = ⟨t + k, p + 2 * k, idx, 0⟩ := by
  intro k
  induction k with
  | zero =>
    intro t p idx _
    simp
  | succ k ih =>
    intro t p idx h
    rw [List.replicate_succ, List.foldl_cons,
      processChunk_aa t p idx (h (t + 1) (by omega) (by omega)),
      ih (t + 1) (p + 2) idx (fun i h1 h2 => h i (by omega) (by omega))]
    have e1 : t + 1 + k = t + (k + 1) := by omega
    have e2 : p + 2 + 2 * k = p + 2 * (k + 1) := by omega
    rw [e1, e2]

theorem scan_phase1 :
    List.foldl processChunk initSt (List.replicate 999 [97, 10]) = ⟨999, 1998, [], 0⟩ := by
  have h := scan_aa_run 999 0 0 [] (by
    intro i h1 h2
    unfold INDEX_INTERVAL
    omega)
  rw [show initSt = (⟨0, 0, [], 0⟩ : ScanSt) from rfl, h]

theorem scanByte_no10 (s : ScanSt × Nat) {b : Nat} (hb : ¬ b = 10) :
    scanByte s b = (s.1, s.2 + 1) := by
  unfold scanByte
  rw [if_neg hb]

theorem foldl_scanByte_no10 : ∀ (c : List Nat), (∀ b ∈ c, ¬ b = 10) →
    ∀ (s : ScanSt × Nat), List.foldl scanByte s c = (s.1, s.2 + c.length) := by
  intro c
  induction c with
  | nil =>
    intro _ s
    simp
  | cons b r ih =>
    intro h s
    rw [List.foldl_cons, scanByte_no10 s (h b (by simp)),
      ih (fun x hx => h x (by simp [hx])) (s.1, s.2 + 1)]
    dsimp only
    simp only [List.length_cons]
    congr 1
    omega

theorem processChunk_no10 (st : ScanSt) (c : List Nat) (hc : ∀ b ∈ c, ¬ b = 10)
    (hlen : st.remLen + c.length ≤ MAX_LINE_BYTES) :
    processChunk st c = ⟨st.total, st.pos, st.index, st.remLen + c.length⟩ := by
  unfold processChunk
  rw [foldl_scanByte_no10 c hc (st, 0)]
  unfold endChunk
  dsimp only
  rw [if_neg (by omega)]
  rw [Nat.zero_add]

theorem scan_phase2 : ∀ (j t p : Nat) (idx : List Nat) (r : Nat),
    r + j * 65536 ≤ MAX_LINE_BYTES →
    List.foldl processChunk ⟨t, p, idx, r⟩ (List.replicate j (List.replicate 65536 97))
      = ⟨t, p, idx, r + j * 65536⟩ := by
  intro j
  induction j with
  | zero =>
    intro t p idx r _
    simp
  | succ j ih =>
    intro t p idx r hle
    rw [List.replicate_succ, List.foldl_cons]
    rw [processChunk_no10 ⟨t, p, idx, r⟩ (List.replicate 65536 97)
      (fun b hb => by rw [List.eq_of_mem_replicate hb]; decide)
      (by dsimp only; rw [List.length_replicate]; omega)]
    dsimp only
    rw [List.length_replicate]
    rw [ih t p idx (r + 65536) (by omega)]
    congr 1
    omega

theorem scan_phase3 :
    processChunk ⟨999, 1998, [], 6291456⟩ [97, 10, 98, 10]
      = ⟨1001, 6293456, [6293454], 0⟩ := by
  decide

theorem openScan_longChunks : openScan longChunks = ⟨1001, 6293456, [6293454], 0⟩ := by
  unfold openScan longChunks
  rw [List.foldl_append, List.foldl_append, scan_phase1]
  rw [scan_phase2 96 999 1998 [] 0 (by unfold MAX_LINE_BYTES; omega)]
  rw [show (0 + 96 * 65536 : Nat) = 6291456 from by norm_num]
  rw [List.foldl_cons, List.foldl_nil, scan_phase3]
  decide

theorem countNL_bigA : countNL (List.replicate 6291457 97) = 0 := by
  unfold countNL
  rw [List.count_replicate]
  rfl

theorem dropLines_longContent_999 :
    dropLines longContent 999 = List.replicate 6291457 97 ++ 10 :: [98, 10] := by
  have h := dropLines_full ((List.replicate 999 [97, 10]).join) (aa_stats 999).2.1
    (List.replicate 6291457 97 ++ 10 :: [98, 10])
  rw [(aa_stats 999).1] at h
  exact h

theorem dropLines_longContent_1000 : dropLines longContent 1000 = [98, 10] := by
  show dropLines longContent (999 + 1) = [98, 10]
  rw [dropLines_succ_alt longContent 999, dropLines_longContent_999,
    readUntil_app [98, 10] countNL_bigA]

theorem length_longContent : longContent.length = 6293458 := by
  unfold longContent
  rw [List.length_append, (aa_stats 999).2.2, List.length_append, List.length_replicate]
  rfl

theorem lineOffset_of_eq {l : List Nat} {n : Nat} {r : List Nat} {L M : Nat}
    (hdrop : dropLines l n = r) (hlen : l.length = L) (hsub : L - r.length = M) :
    lineOffset l n = M := by
  unfold lineOffset
  rw [hdrop, hlen, hsub]

theorem lineOffset_longContent_1000 : lineOffset longContent 1000 = 6293456 :=
  lineOffset_of_eq dropLines_longContent_1000 length_longContent (by decide)

theorem totalLines_longContent : totalLines longContent = 1001 := by
  rw [totalLines_formula]
  have hc : countNL longContent = 1001 := by
    unfold longContent
    rw [countNL_append, (aa_stats 999).1, countNL_append, countNL_bigA]
    rfl
  have ht : tailLen longContent = 0 := by
    apply tailLen_zero_of_last10
    unfold longContent
    have h1 : List.replicate 6291457 97 ++ 10 :: [98, 10] ≠ ([] : List Nat) := by
      intro h
      have h2 := congrArg List.length h
      rw [List.length_append, List.length_replicate] at h2
      exact absurd h2 (by decide)
    rw [List.getLast?_append_of_ne_nil _ h1,
      List.getLast?_append_of_ne_nil _ (by decide)]
    rfl
  rw [hc, ht]
  rfl

theorem drop_longContent : longContent.drop 6293454 = [97, 10, 98, 10] := by
  rw [show (6293454 : Nat) = 1998 + 6291456 from by norm_num, ← List.drop_drop]
  unfold longContent
  rw [List.drop_left' (by rw [(aa_stats 999).2.2])]
  rw [show (List.replicate 6291457 97 : List Nat) = List.replicate 6291456 97 ++ [97] from by
    rw [← List.replicate_succ']]
  rw [List.append_assoc]
  rw [List.drop_left' (by rw [List.length_replicate])]
  rfl

theorem readLines_longContent :
    readLinesModel longContent [6293454] 1001 1 none false = [98, 10] := by
  simp only [readLinesModel]
  rw [show baseAnchor [6293454] 1001 = (6293454, 1000) from by decide]
  dsimp only
  rw [if_pos (mapLenOf_pos 1 6293454)]
  rw [if_neg (show ¬ longContent.length ≤ alignedOf 6293454 from by
    rw [length_longContent]
    decide)]
  rw [if_neg (by simp)]
  unfold seqFallback
  rw [drop_longContent]
  decide

/-- C5 (corrected claim, counterexample): on a file of 999 lines `a\n`, one
line of 6291457 `a`s and a final line `b\n`, read in 64 KiB chunks, `open`
stores 6293454 as the single index entry, but the true byte offset of line
`(0+1)*1000` is 6293456: the position bookkeeping for the over-limit line
drops the bytes beyond the 6 MiB cap, so the stored offset drifts. -/
theorem C5_counterexample :
    ValidChunks longContent longChunks ∧
    totalLines longContent = 1001 ∧
    (openScan longChunks).index = [6293454] ∧
    lineOffset longContent ((0 + 1) * INDEX_INTERVAL) = 6293456 ∧
    (6293454 : Nat) ≠ 6293456 := by
  refine ⟨validChunks_long, totalLines_longContent, ?_, ?_, by decide⟩
  · rw [openScan_longChunks]
  · show lineOffset longContent 1000 = 6293456
    exact lineOffset_longContent_1000

/-- C10 (corrected claim, counterexample): on the same file, whose index entry
drifted to 6293454, `read_lines(1001, 1)` with `start = total_lines = 1001`
does not return empty text: the sequential fallback seeks to the stored
offset, skips one line and returns the text `b\n`. -/
theorem C10_counterexample :
    ValidChunks longContent longChunks ∧
    totalLines longContent ≤ 1001 ∧
    readLinesModel longContent (openScan longChunks).index 1001 1 none false = [98, 10] ∧
    ([98, 10] : List Nat) ≠ [] := by
  refine ⟨validChunks_long, le_of_eq totalLines_longContent, ?_, by decide⟩
  rw [openScan_longChunks]
  exact readLines_longContent
